import Mathlib

/-!
Verification development for the tree-integrity subsystem
(`go-llvm-tree-integrity.cpp`, class `IntegrityVisitor`).

The embedding represents IR nodes (`Bnode`) by natural-number handles into a
finite store (a list of node records), mirroring the pointer graph of the
source: sharing is a node handle occurring at more than one (parent, slot)
location.  The visitor state (`IntegrityVisitor`) carries the `nparent_` /
`iparent_` maps, the `sharing_` ledger, the three share counters and the
diagnostic stream (modelled as a list of structured events instead of text).
Recursive traversals are given explicit fuel; a `none` result means the fuel
ran out (the C++ recursions terminate on all well-formed finite inputs).
-/

inductive NodeFlavor where
  | N_Error
  | N_Const
  | N_Var
  | N_Conversion
  | N_Deref
  | N_Address
  | N_StructField
  | N_BinaryOp
  | N_UnaryOp
  | N_Call
  | N_Compound
  | N_Composite
  | N_EmptyStmt
  | N_ExprStmt
  | N_BlockStmt
  | N_IfStmt
  | N_SwitchStmt
  | N_GotoStmt
  | N_LabelStmt
deriving DecidableEq

open NodeFlavor

/-- Statement flavors: a `Bnode` is a statement iff its flavor is one of the
statement flavors (as in the source, where `isStmt()` / `castToBexpression`
are determined by the node's flavor). -/
def isStmtFlavor : NodeFlavor → Bool
  | N_EmptyStmt => true
  | N_ExprStmt => true
  | N_BlockStmt => true
  | N_IfStmt => true
  | N_SwitchStmt => true
  | N_GotoStmt => true
  | N_LabelStmt => true
  | _ => false

inductive Operator where
  | OPERATOR_PLUS
  | OPERATOR_MINUS
  | OPERATOR_MULT
  | OPERATOR_DIV
  | OPERATOR_EQEQ
  | OPERATOR_LT
  | OPERATOR_INVALID
deriving DecidableEq

open Operator

/-- An IR node.  `op` is meaningful for `N_BinaryOp`/`N_UnaryOp` nodes;
`instructions` is meaningful for expression nodes only.
`isModuleScopeValue` models the external backend predicate
`be_->moduleScopeValue(expr->value(), expr->btype())` as a per-node fact. -/
structure Bnode where
  flavor : NodeFlavor
  op : Operator
  isModuleScopeValue : Bool
  children : List Nat
  instructions : List Nat
deriving DecidableEq

/-- Out-of-range handles resolve to an inert childless constant; well-formed
stores keep every mentioned handle in range. -/
def defaultBnode : Bnode :=
  { flavor := N_Const, op := OPERATOR_INVALID, isModuleScopeValue := false,
    children := [], instructions := [] }

abbrev Store := List Bnode

def nodeAt (s : Store) (n : Nat) : Bnode := s.getD n defaultBnode

/-- The child handle installed at `(parent, slot)` (C++ `parent->children()[slot]`). -/
def childAt (s : Store) (parent slot : Nat) : Nat :=
  (nodeAt s parent).children.getD slot 0

/-- The instruction handle at position `slot` of `parent`'s instruction list. -/
def instAt (s : Store) (parent slot : Nat) : Nat :=
  (nodeAt s parent).instructions.getD slot 0

inductive VisitDisp where
  | BatchMode
  | IncrementalMode
deriving DecidableEq

inductive RepairDisp where
  | ReportRepairableSharing
  | DontReportRepairableSharing
deriving DecidableEq

open VisitDisp RepairDisp

/-- Control object for a check (`TreeIntegCtl`): visit mode and repair
disposition.  `rfuel` is the fuel handed to the repairability classifier when
`setParent` consults it (a model artifact: the C++ scan always terminates). -/
structure TreeIntegCtl where
  visitMode : VisitDisp
  repairDisp : RepairDisp
  rfuel : Nat
deriving DecidableEq

/-- One entry of the diagnostic stream `ss_`: the structured content of the
"X has multiple parents" report (child/instruction and both parents). -/
inductive DiagEvent where
  | nodeShare (stmt : Bool) (child prevParent parent : Nat)
  | instShare (inst : Nat) (prevParent parent : Nat)
deriving DecidableEq

/-- State of class `IntegrityVisitor`: the two parent maps, the sharing
ledger and the three share counters, plus the diagnostic stream. -/
structure IntegrityVisitor where
  nparent : List (Nat × Nat × Nat)
  iparent : List (Nat × Nat × Nat)
  sharing : List (Nat × Nat)
  instShareCount : Nat
  stmtShareCount : Nat
  exprShareCount : Nat
  diag : List DiagEvent
deriving DecidableEq

/-- A freshly constructed visitor (tracking state is created per check). -/
def initIV : IntegrityVisitor :=
  { nparent := [], iparent := [], sharing := [],
    instShareCount := 0, stmtShareCount := 0, exprShareCount := 0, diag := [] }

/-- Association-list lookup for the parent maps (`std::unordered_map::find`). -/
def alook (k : Nat) : List (Nat × Nat × Nat) → Option (Nat × Nat)
  | [] => none
  | e :: rest => if e.1 = k then some e.2 else alook k rest

/-- Association-list erase (`std::unordered_map::erase`). -/
def aerase (k : Nat) : List (Nat × Nat × Nat) → List (Nat × Nat × Nat)
  | [] => []
  | e :: rest => if e.1 = k then aerase k rest else e :: aerase k rest

/-- `IntegrityVisitor::shouldBeTracked`: everything is tracked except an
expression that is a module-scope value. -/
def shouldBeTracked (nd : Bnode) : Bool :=
  if isStmtFlavor nd.flavor = false ∧ nd.isModuleScopeValue = true then false
  else true

/-- The flavors inserted into the `acceptable` set of
`IntegrityVisitor::repairableSubTree`. -/
def acceptableFlavor : NodeFlavor → Bool
  | N_Const => true
  | N_Var => true
  | N_Conversion => true
  | N_Deref => true
  | N_StructField => true
  | N_BinaryOp => true
  | _ => false

/-- The per-node test of `repairableSubTree`, stated as one boolean:
flavor in the acceptable set, with binary operations restricted to
addition and subtraction. -/
def okNodeB (nd : Bnode) : Bool :=
  if acceptableFlavor nd.flavor = false then false
  else if nd.flavor = N_BinaryOp ∧ nd.op ≠ OPERATOR_PLUS ∧ nd.op ≠ OPERATOR_MINUS then false
  else true

/-- The `for (auto &c : e->children())` push loop of `repairableSubTree`:
children not yet in the visited set are inserted into it and pushed onto
the worklist. -/
def pushKids (vis wl : List Nat) : List Nat → List Nat × List Nat
  | [] => (vis, wl)
  | c :: cs =>
    if c ∈ vis then pushKids vis wl cs
    else pushKids (c :: vis) (c :: wl) cs

/-- The worklist loop of `IntegrityVisitor::repairableSubTree`.  The head of
`wl` is the top of the worklist.  Fuel exhaustion yields `none`. -/
def rsubAux (s : Store) : Nat → List Nat → List Nat → Option Bool
  | 0, _, _ => none
  | _ + 1, _, [] => some true
  | fuel + 1, vis, e :: rest =>
    let nd := nodeAt s e
    if acceptableFlavor nd.flavor = false then some false
    else if nd.flavor = N_BinaryOp ∧ nd.op ≠ OPERATOR_PLUS ∧ nd.op ≠ OPERATOR_MINUS then
      some false
    else
      let pr := pushKids vis rest nd.children
      rsubAux s fuel pr.1 pr.2

/-- `IntegrityVisitor::repairableSubTree`: worklist scan from `root` with the
visited set initialized to `{root}`. -/
def repairableSubTree (s : Store) (fuel : Nat) (root : Nat) : Option Bool :=
  rsubAux s fuel [root] [root]

/-- `IntegrityVisitor::setParent(Bnode *child, Bnode *parent, unsigned slot)`,
lines 84-135 of the source, transcribed branch by branch. -/
def setParent (s : Store) (ctl : TreeIntegCtl) (child parent slot : Nat)
    (st : IntegrityVisitor) : IntegrityVisitor :=
  if shouldBeTracked (nodeAt s child) = false then st
  else
    match alook child st.nparent with
    | some prev =>
      if prev.1 = parent ∧ prev.2 = slot then st
      else if (nodeAt s child).flavor = N_Error then st
      else if (parent, slot) ∈ st.sharing then st
      else if isStmtFlavor (nodeAt s child).flavor = false ∧
          ctl.repairDisp = DontReportRepairableSharing ∧
          repairableSubTree s ctl.rfuel child = some true then
        { st with sharing := st.sharing ++ [(parent, slot)] }
      else if isStmtFlavor (nodeAt s child).flavor = true then
        { st with sharing := st.sharing ++ [(parent, slot)],
                  stmtShareCount := st.stmtShareCount + 1,
                  diag := st.diag ++ [DiagEvent.nodeShare true child prev.1 parent] }
      else
        { st with sharing := st.sharing ++ [(parent, slot)],
                  exprShareCount := st.exprShareCount + 1,
                  diag := st.diag ++ [DiagEvent.nodeShare false child prev.1 parent] }
    | none => { st with nparent := (child, parent, slot) :: st.nparent }

/-- `IntegrityVisitor::setParent(llvm::Instruction *inst, Bexpression
*exprParent, unsigned slot)`, lines 137-158. -/
def setParentInst (inst exprParent slot : Nat) (st : IntegrityVisitor) : IntegrityVisitor :=
  match alook inst st.iparent with
  | some prev =>
    if prev.1 = exprParent ∧ prev.2 = slot then st
    else
      { st with instShareCount := st.instShareCount + 1,
                diag := st.diag ++ [DiagEvent.instShare inst prev.1 exprParent] }
  | none => { st with iparent := (inst, exprParent, slot) :: st.iparent }

/-- `IntegrityVisitor::unsetParent`, lines 71-82.  The C++ asserts that an
entry exists; a missing entry is modelled as a no-op.  Note the source
erases when the previous parent matches OR the previous slot matches. -/
def unsetParent (s : Store) (child parent slot : Nat)
    (st : IntegrityVisitor) : IntegrityVisitor :=
  if shouldBeTracked (nodeAt s child) = false then st
  else
    match alook child st.nparent with
    | none => st
    | some prev =>
      if prev.1 = parent ∨ prev.2 = slot then
        { st with nparent := aerase child st.nparent }
      else st

/-- State of the external backend seen by the checker: the global
enable/disable toggle (`nodeBuilder().integrityChecksEnabled()` /
`setIntegrityChecks`). -/
structure BackendState where
  checksEnabled : Bool
deriving DecidableEq

/-- Modelled from the spec: `cloneSubtree` of the external node builder (not
under src/) produces a deep, value-equal copy of the subtree with fresh
handles.  Cloned children are appended to the store left to right and the
copy of the root is appended last; its handle is returned.  Fresh
instruction handles are not modelled, so clones carry no instructions. -/
def cloneKidsWith (cf : Store → Nat → Option (Store × Nat)) :
    Store → List Nat → Option (Store × List Nat)
  | s, [] => some (s, [])
  | s, c :: cs =>
    match cf s c with
    | none => none
    | some (s1, c1) =>
      match cloneKidsWith cf s1 cs with
      | none => none
      | some (s2, cs2) => some (s2, c1 :: cs2)

/-- Modelled from the spec: see `cloneKidsWith`. -/
def cloneSubtree (s : Store) : Nat → Nat → Option (Store × Nat)
  | 0, _ => none
  | fuel + 1, root =>
    let nd := nodeAt s root
    match cloneKidsWith (fun s' c => cloneSubtree s' fuel c) s nd.children with
    | none => none
    | some (s1, kids) =>
      some (s1 ++ [{ nd with children := kids, instructions := [] }], s1.length)

/-- `parent->replaceChild(slot, childClone)`: rewires one child slot. -/
def replaceChild (s : Store) (parent slot newChild : Nat) : Store :=
  s.set parent { nodeAt s parent with
                 children := (nodeAt s parent).children.set slot newChild }

/-- The `for (auto &ps : sharing_)` loop of `IntegrityVisitor::repair`:
processes ledger entries in order against the current (partially rewritten)
store, memoizing classified subtree roots in `vis`.  Returns the final
verdict together with the store and memo set at the point of exit. -/
def repairLoop (rfuel : Nat) : Store → List Nat → List (Nat × Nat) →
    Option (Bool × Store × List Nat)
  | s, vis, [] => some (true, s, vis)
  | s, vis, ps :: rest =>
    let child := childAt s ps.1 ps.2
    if child ∈ vis then
      match cloneSubtree s rfuel child with
      | none => none
      | some (s1, clone) => repairLoop rfuel (replaceChild s1 ps.1 ps.2 clone) vis rest
    else
      match repairableSubTree s rfuel child with
      | none => none
      | some false => some (false, s, vis)
      | some true =>
        match cloneSubtree s rfuel child with
        | none => none
        | some (s1, clone) =>
          repairLoop rfuel (replaceChild s1 ps.1 ps.2 clone) (child :: vis) rest

/-- The RAII guard `ScopedIntegrityCheckDisabler` (lines 198-210): the body
runs against a backend state with the toggle forced off, and the saved value
is written back unconditionally when the scope exits, whatever the body did
and on every exit path. -/
def withIntegrityChecksDisabled {α : Type} (g : BackendState)
    (body : BackendState → Option (α × BackendState)) : Option (α × BackendState) :=
  match body { g with checksEnabled := false } with
  | none => none
  | some (a, g1) => some (a, { g1 with checksEnabled := g.checksEnabled })

/-- The body of `IntegrityVisitor::repair` (the ledger loop and the final
clear), threaded with the disabled backend state.  On success the ledger is
cleared and the expression-share counter reset; on failure the visitor state
is left as it was. -/
def repairBody (s : Store) (rfuel : Nat) (st : IntegrityVisitor) (gd : BackendState) :
    Option ((Bool × Store × IntegrityVisitor) × BackendState) :=
  match repairLoop rfuel s [] st.sharing with
  | none => none
  | some (false, s1, _) => some ((false, s1, st), gd)
  | some (true, s1, _) =>
    some ((true, s1, { st with sharing := [], exprShareCount := 0 }), gd)

/-- `IntegrityVisitor::repair`, lines 212-235: the body runs under the
scoped disabler. -/
def repair (s : Store) (rfuel : Nat) (st : IntegrityVisitor) (g : BackendState) :
    Option (Bool × Store × IntegrityVisitor × BackendState) :=
  match withIntegrityChecksDisabled g (repairBody s rfuel st) with
  | none => none
  | some (r, g1) => some (r.1, r.2.1, r.2.2, g1)

/-- The per-expression instruction loop at the end of `IntegrityVisitor::visit`. -/
def visitInsts (exprParent : Nat) : List Nat → Nat → IntegrityVisitor → IntegrityVisitor
  | [], _, st => st
  | i :: is', idx, st => visitInsts exprParent is' (idx + 1) (setParentInst i exprParent idx st)

/-- The children loop of `IntegrityVisitor::visit`: in batch mode each child
subtree is visited (via `vf`, the recursive call at one fuel less) before the
edge into it is recorded. -/
def visitKidsWith (vf : Nat → IntegrityVisitor → Option IntegrityVisitor)
    (s : Store) (ctl : TreeIntegCtl) (parent : Nat) :
    List Nat → Nat → IntegrityVisitor → Option IntegrityVisitor
  | [], _, st => some st
  | c :: cs, idx, st =>
    match (if ctl.visitMode = BatchMode then vf c st else some st) with
    | none => none
    | some st1 => visitKidsWith vf s ctl parent cs (idx + 1) (setParent s ctl c parent idx st1)

/-- `IntegrityVisitor::visit`, lines 237-251, with explicit fuel for the
batch-mode recursion. -/
def visit (s : Store) (ctl : TreeIntegCtl) : Nat → Nat → IntegrityVisitor →
    Option IntegrityVisitor
  | 0, _, _ => none
  | fuel + 1, node, st =>
    match visitKidsWith (visit s ctl fuel) s ctl node (nodeAt s node).children 0 st with
    | none => none
    | some st1 =>
      if isStmtFlavor (nodeAt s node).flavor = true then some st1
      else some (visitInsts node (nodeAt s node).instructions 0 st1)

/-- `IntegrityVisitor::examine`, lines 253-282.  Returns the verdict together
with the (possibly repaired) store, the visitor state and the backend state. -/
def examine (s : Store) (ctl : TreeIntegCtl) (fuel : Nat) (node : Nat)
    (st : IntegrityVisitor) (g : BackendState) :
    Option (Bool × Store × IntegrityVisitor × BackendState) :=
  match visit s ctl fuel node st with
  | none => none
  | some st1 =>
    if st1.instShareCount ≠ 0 ∨ st1.stmtShareCount ≠ 0 then some (false, s, st1, g)
    else if st1.exprShareCount ≠ 0 then some (false, s, st1, g)
    else if ctl.visitMode = IncrementalMode then
      some (true, s, { st1 with sharing := [] }, g)
    else if st1.sharing = [] then some (true, s, st1, g)
    else
      match repair s ctl.rfuel st1 g with
      | none => none
      | some (b, s1, st2, g1) => some (b, s1, st2, g1)

/-- One recorded attachment: a child edge `(child, parent, slot)` or an
instruction edge `(inst, exprParent, slot)`.  The traversal of `visit` is
exactly a left fold of `procEdge` over the edge sequence produced by
`edgeList` below. -/
inductive Edge where
  | node (child parent slot : Nat)
  | inst (inst exprParent slot : Nat)
deriving DecidableEq

/-- Processing one edge: the corresponding `setParent` call. -/
def procEdge (s : Store) (ctl : TreeIntegCtl) (st : IntegrityVisitor) : Edge → IntegrityVisitor
  | Edge.node c p i => setParent s ctl c p i st
  | Edge.inst i p j => setParentInst i p j st

/-- Instruction edges contributed by one expression node. -/
def instEdges (exprParent : Nat) : List Nat → Nat → List Edge
  | [], _ => []
  | i :: is', idx => Edge.inst i exprParent idx :: instEdges exprParent is' (idx + 1)

/-- Edge sequence of the children loop of `visit` (cf. `visitKidsWith`). -/
def edgeKidsWith (ef : Nat → Option (List Edge)) (ctl : TreeIntegCtl) (parent : Nat) :
    List Nat → Nat → Option (List Edge)
  | [], _ => some []
  | c :: cs, idx =>
    match (if ctl.visitMode = BatchMode then ef c else some []) with
    | none => none
    | some l1 =>
      match edgeKidsWith ef ctl parent cs (idx + 1) with
      | none => none
      | some l2 => some (l1 ++ Edge.node c parent idx :: l2)

/-- The sequence of edges recorded by `visit s ctl fuel node`, in traversal
order. -/
def edgeList (s : Store) (ctl : TreeIntegCtl) : Nat → Nat → Option (List Edge)
  | 0, _ => none
  | fuel + 1, node =>
    match edgeKidsWith (edgeList s ctl fuel) ctl node (nodeAt s node).children 0 with
    | none => none
    | some l =>
      if isStmtFlavor (nodeAt s node).flavor = true then some l
      else some (l ++ instEdges node (nodeAt s node).instructions 0)

/-- Reachability through child edges, starting from a root handle. -/
inductive Reaches (s : Store) : Nat → Nat → Prop
  | refl (x : Nat) : Reaches s x x
  | step {x y z : Nat} : Reaches s x y → z ∈ (nodeAt s y).children → Reaches s x z

/-- The conflict counter relevant to a node class: statement-share count for
statements, expression-share count for expressions. -/
def classCnt (stmtq : Bool) (st : IntegrityVisitor) : Nat :=
  if stmtq then st.stmtShareCount else st.exprShareCount

def isNodeShareEv (stmtq : Bool) : DiagEvent → Bool
  | DiagEvent.nodeShare b _ _ _ => b == stmtq
  | DiagEvent.instShare _ _ _ => false

def isInstShareEv : DiagEvent → Bool
  | DiagEvent.nodeShare _ _ _ _ => false
  | DiagEvent.instShare _ _ _ => true

/-- Each share counter is bounded by the number of matching diagnostic
events: every increment is accompanied by an emitted report. -/
def diagBound (st : IntegrityVisitor) : Prop :=
  st.stmtShareCount ≤ st.diag.countP (fun e => isNodeShareEv true e) ∧
  st.exprShareCount ≤ st.diag.countP (fun e => isNodeShareEv false e) ∧
  st.instShareCount ≤ st.diag.countP (fun e => isInstShareEv e)

/-- Every sharing-ledger location holding a tracked, non-error child of the
given class has already been accounted in the class counter (for the
expression class this needs reporting to be enabled). -/
def ledgerCounted (s : Store) (stmtq : Bool) (st : IntegrityVisitor) : Prop :=
  ∀ ps ∈ st.sharing,
    isStmtFlavor (nodeAt s (childAt s ps.1 ps.2)).flavor = stmtq →
    shouldBeTracked (nodeAt s (childAt s ps.1 ps.2)) = true →
    (nodeAt s (childAt s ps.1 ps.2)).flavor ≠ N_Error →
    0 < classCnt stmtq st

/-- Location/handle consistency of an edge list with respect to the store:
the carried child (or instruction) is exactly the one installed at the
carried location. -/
def EdgesOk (s : Store) (l : List Edge) : Prop :=
  ∀ e ∈ l, (∀ c p i, e = Edge.node c p i → childAt s p i = c) ∧
    (∀ ii p j, e = Edge.inst ii p j → instAt s p j = ii)

/-- Helper to build node records concisely in concrete test stores. -/
def bnode (fl : NodeFlavor) (ms : Bool) (kids insts : List Nat) : Bnode :=
  { flavor := fl, op := OPERATOR_INVALID, isModuleScopeValue := ms,
    children := kids, instructions := insts }

/-- Concrete store: an expression root holding the same constant in both
child slots (whitelisted expression sharing). -/
def sExprShare : Store :=
  [bnode N_Deref false [1, 1] [], bnode N_Const false [] []]

/-- Concrete store: a statement shared at depth two under two statement
parents. -/
def sStmtShare : Store :=
  [bnode N_BlockStmt false [1, 2] [], bnode N_ExprStmt false [3] [],
   bnode N_ExprStmt false [3] [], bnode N_EmptyStmt false [] []]

/-- Concrete store: a module-scope constant (handle 1) whose child (handle 3)
is also shared under another parent (handle 2). -/
def sModScope : Store :=
  [bnode N_Deref false [1, 2] [], bnode N_Const true [3] [],
   bnode N_Deref false [3] [], bnode N_Var false [] []]

/-- Concrete store: dereference of a variable (fully whitelisted). -/
def sDerefVar : Store :=
  [bnode N_Deref false [1] [], bnode N_Var false [] []]

/-- Concrete store for the repair claims: slot (0,0) holds a repairable
constant, slot (0,1) holds a non-repairable call. -/
def sRepair : Store :=
  [bnode N_Call false [1, 2] [], bnode N_Const false [] [], bnode N_Call false [] []]

/-- `sRepair` after the first ledger entry (0,0) has been rewritten to a
clone (handle 3) of the constant. -/
def sRepairPartial : Store :=
  [bnode N_Call false [3, 2] [], bnode N_Const false [] [], bnode N_Call false [] [],
   bnode N_Const false [] []]

/-- Concrete store for the C8 witness: one repairable shared slot. -/
def sOneSlot : Store :=
  [bnode N_Deref false [1] [], bnode N_Const false [] []]

/-- `sOneSlot` after repair cloned the constant into handle 2. -/
def sOneSlotRepaired : Store :=
  [bnode N_Deref false [2] [], bnode N_Const false [] [], bnode N_Const false [] []]

/-- Concrete store with a single error-flavored node. -/
def sErrNode : Store := [bnode N_Error false [] []]

lemma pushKids_vis_mono : ∀ (cs vis wl : List Nat), ∀ x ∈ vis, x ∈ (pushKids vis wl cs).1 := by
  intro cs
  induction cs with
  | nil => intro vis wl x hx; simpa [pushKids] using hx
  | cons c cs ih =>
    intro vis wl x hx
    by_cases hc : c ∈ vis
    · simpa [pushKids, hc] using ih vis wl x hx
    · simpa [pushKids, hc] using ih (c :: vis) (c :: wl) x (List.mem_cons_of_mem _ hx)

lemma pushKids_kids_in_vis : ∀ (cs vis wl : List Nat), ∀ c ∈ cs, c ∈ (pushKids vis wl cs).1 := by
  intro cs
  induction cs with
  | nil => intro vis wl c hc; cases hc
  | cons c0 cs ih =>
    intro vis wl c hc
    rcases List.mem_cons.mp hc with h | h
    · subst h
      by_cases hc0 : c ∈ vis
      · simpa [pushKids, hc0] using pushKids_vis_mono cs vis wl c hc0
      · simpa [pushKids, hc0] using
          pushKids_vis_mono cs (c :: vis) (c :: wl) c (List.mem_cons_self _ _)
    · by_cases hc0 : c0 ∈ vis
      · simpa [pushKids, hc0] using ih vis wl c h
      · simpa [pushKids, hc0] using ih (c0 :: vis) (c0 :: wl) c h

lemma pushKids_wl_mono : ∀ (cs vis wl : List Nat), ∀ x ∈ wl, x ∈ (pushKids vis wl cs).2 := by
  intro cs
  induction cs with
  | nil => intro vis wl x hx; simpa [pushKids] using hx
  | cons c cs ih =>
    intro vis wl x hx
    by_cases hc : c ∈ vis
    · simpa [pushKids, hc] using ih vis wl x hx
    · simpa [pushKids, hc] using ih (c :: vis) (c :: wl) x (List.mem_cons_of_mem _ hx)

lemma pushKids_wl_src : ∀ (cs vis wl : List Nat), ∀ x ∈ (pushKids vis wl cs).2,
    x ∈ wl ∨ x ∈ cs := by
  intro cs
  induction cs with
  | nil => intro vis wl x hx; exact Or.inl (by simpa [pushKids] using hx)
  | cons c cs ih =>
    intro vis wl x hx
    by_cases hc : c ∈ vis
    · rcases ih vis wl x (by simpa [pushKids, hc] using hx) with h | h
      · exact Or.inl h
      · exact Or.inr (List.mem_cons_of_mem _ h)
    · rcases ih (c :: vis) (c :: wl) x (by simpa [pushKids, hc] using hx) with h | h
      · rcases List.mem_cons.mp h with h' | h'
        · exact Or.inr (h' ▸ List.mem_cons_self _ _)
        · exact Or.inl h'
      · exact Or.inr (List.mem_cons_of_mem _ h)

lemma pushKids_vis_src : ∀ (cs vis wl : List Nat), ∀ x ∈ (pushKids vis wl cs).1,
    x ∈ vis ∨ x ∈ cs := by
  intro cs
  induction cs with
  | nil => intro vis wl x hx; exact Or.inl (by simpa [pushKids] using hx)
  | cons c cs ih =>
    intro vis wl x hx
    by_cases hc : c ∈ vis
    · rcases ih vis wl x (by simpa [pushKids, hc] using hx) with h | h
      · exact Or.inl h
      · exact Or.inr (List.mem_cons_of_mem _ h)
    · rcases ih (c :: vis) (c :: wl) x (by simpa [pushKids, hc] using hx) with h | h
      · rcases List.mem_cons.mp h with h' | h'
        · exact Or.inr (h' ▸ List.mem_cons_self _ _)
        · exact Or.inl h'
      · exact Or.inr (List.mem_cons_of_mem _ h)

lemma pushKids_new_in_wl : ∀ (cs vis wl : List Nat), ∀ x ∈ cs, x ∉ vis →
    x ∈ (pushKids vis wl cs).2 := by
  intro cs
  induction cs with
  | nil => intro vis wl x hx; cases hx
  | cons c cs ih =>
    intro vis wl x hx hnv
    rcases List.mem_cons.mp hx with h | h
    · subst h
      have hc : x ∉ vis := hnv
      simp only [pushKids, if_neg hc]
      exact pushKids_wl_mono cs (x :: vis) (x :: wl) x (List.mem_cons_self _ _)
    · by_cases hc : c ∈ vis
      · simpa [pushKids, hc] using ih vis wl x h hnv
      · simp only [pushKids, if_neg hc]
        by_cases hxc : x = c
        · subst hxc
          exact pushKids_wl_mono cs (x :: vis) (x :: wl) x (List.mem_cons_self _ _)
        · exact ih (c :: vis) (c :: wl) x h (by
            intro hmem
            rcases List.mem_cons.mp hmem with h' | h'
            · exact hxc h'
            · exact hnv h')

lemma reaches_mem_of_closed (s : Store) (root : Nat) (vis : List Nat)
    (hroot : root ∈ vis)
    (hclosed : ∀ x ∈ vis, ∀ c ∈ (nodeAt s x).children, c ∈ vis) :
    ∀ y, Reaches s root y → y ∈ vis := by
  intro y hy
  induction hy with
  | refl => exact hroot
  | step hxy hc ih => exact hclosed _ ih _ hc

lemma rsubAux_spec (s : Store) (root : Nat) :
    ∀ (fuel : Nat) (vis wl : List Nat) (b : Bool),
    root ∈ vis →
    (∀ x ∈ vis, Reaches s root x) →
    (∀ x ∈ wl, x ∈ vis) →
    (∀ x ∈ vis, x ∉ wl → okNodeB (nodeAt s x) = true ∧
        ∀ c ∈ (nodeAt s x).children, c ∈ vis) →
    rsubAux s fuel vis wl = some b →
    (b = true → ∀ y, Reaches s root y → okNodeB (nodeAt s y) = true) ∧
    (b = false → ∃ y, Reaches s root y ∧ okNodeB (nodeAt s y) = false) := by
  intro fuel
  induction fuel with
  | zero => intro vis wl b _ _ _ _ hrun; simp [rsubAux] at hrun
  | succ fuel ih =>
    intro vis wl b hroot hreach hwl hproc hrun
    cases wl with
    | nil =>
      have hb : b = true := by simpa [rsubAux] using hrun.symm
      subst hb
      refine ⟨fun _ y hy => ?_, fun h => by cases h⟩
      have hcl : ∀ x ∈ vis, ∀ c ∈ (nodeAt s x).children, c ∈ vis := by
        intro x hx c hc
        exact (hproc x hx (by simp)).2 c hc
      have hmem := reaches_mem_of_closed s root vis hroot hcl y hy
      exact (hproc y hmem (by simp)).1
    | cons e rest =>
      have hevis : e ∈ vis := hwl e (List.mem_cons_self _ _)
      by_cases hacc : acceptableFlavor (nodeAt s e).flavor = false
      · have hb : some false = some b := by simpa [rsubAux, hacc] using hrun
        have hb' : b = false := (Option.some.inj hb).symm
        subst hb'
        constructor
        · intro h; exact absurd h (by simp)
        · intro _
          refine ⟨e, hreach e hevis, ?_⟩
          simp [okNodeB, hacc]
      · by_cases hbin : (nodeAt s e).flavor = N_BinaryOp ∧
            (nodeAt s e).op ≠ OPERATOR_PLUS ∧ (nodeAt s e).op ≠ OPERATOR_MINUS
        · have hb : some false = some b := by simpa [rsubAux, hacc, hbin] using hrun
          have hb' : b = false := (Option.some.inj hb).symm
          subst hb'
          constructor
          · intro h; exact absurd h (by simp)
          · intro _
            refine ⟨e, hreach e hevis, ?_⟩
            simp [okNodeB, hacc, hbin]
        · have hrun' : rsubAux s fuel (pushKids vis rest (nodeAt s e).children).1
              (pushKids vis rest (nodeAt s e).children).2 = some b := by
            simpa [rsubAux, hacc, hbin] using hrun
          have hok : okNodeB (nodeAt s e) = true := by
            simp [okNodeB, hacc, hbin]
          refine ih (pushKids vis rest (nodeAt s e).children).1
            (pushKids vis rest (nodeAt s e).children).2 b ?_ ?_ ?_ ?_ hrun'
          · exact pushKids_vis_mono _ vis rest root hroot
          · intro x hx
            rcases pushKids_vis_src _ vis rest x hx with h | h
            · exact hreach x h
            · exact Reaches.step (hreach e hevis) h
          · intro x hx
            rcases pushKids_wl_src _ vis rest x hx with h | h
            · exact pushKids_vis_mono _ vis rest x (hwl x (List.mem_cons_of_mem _ h))
            · exact pushKids_kids_in_vis _ vis rest x h
          · intro x hx hnwl
            rcases pushKids_vis_src _ vis rest x hx with hxv | hxk
            · by_cases hxe : x = e
              · subst hxe
                exact ⟨hok, fun c hc => pushKids_kids_in_vis _ vis rest c hc⟩
              · have hxnw : x ∉ e :: rest := by
                  intro hmem
                  rcases List.mem_cons.mp hmem with h' | h'
                  · exact hxe h'
                  · exact hnwl (pushKids_wl_mono _ vis rest x h')
                have := hproc x hxv hxnw
                exact ⟨this.1, fun c hc => pushKids_vis_mono _ vis rest c (this.2 c hc)⟩
            · by_cases hxv : x ∈ vis
              · by_cases hxe : x = e
                · subst hxe
                  exact ⟨hok, fun c hc => pushKids_kids_in_vis _ vis rest c hc⟩
                · have hxnw : x ∉ e :: rest := by
                    intro hmem
                    rcases List.mem_cons.mp hmem with h' | h'
                    · exact hxe h'
                    · exact hnwl (pushKids_wl_mono _ vis rest x h')
                  have := hproc x hxv hxnw
                  exact ⟨this.1, fun c hc => pushKids_vis_mono _ vis rest c (this.2 c hc)⟩
              · exact absurd (pushKids_new_in_wl _ vis rest x hxk hxv) hnwl

/-- C3-facing wrapper: the repairability classifier, when it terminates,
answers `true` exactly when every node reachable from the root passes the
whitelist test. -/
lemma repairableSubTree_iff_whitelist (s : Store) (fuel root : Nat) (b : Bool)
    (h : repairableSubTree s fuel root = some b) :
    b = true ↔ ∀ y, Reaches s root y → okNodeB (nodeAt s y) = true := by
  have hspec := rsubAux_spec s root fuel [root] [root] b
    (by simp)
    (by
      intro x hx
      have : x = root := by simpa using hx
      subst this
      exact Reaches.refl x)
    (fun x hx => hx)
    (by
      intro x hx hnx
      exact absurd hx hnx)
    h
  constructor
  · intro hb; exact hspec.1 hb
  · intro hall
    cases hb : b with
    | true => rfl
    | false =>
      obtain ⟨y, hy, hok⟩ := hspec.2 hb
      rw [hall y hy] at hok
      cases hok

lemma visitInsts_fold (s : Store) (ctl : TreeIntegCtl) :
    ∀ (is' : List Nat) (p idx : Nat) (st : IntegrityVisitor),
    visitInsts p is' idx st = (instEdges p is' idx).foldl (procEdge s ctl) st := by
  intro is'
  induction is' with
  | nil => intro p idx st; simp [visitInsts, instEdges]
  | cons i is' ih =>
    intro p idx st
    simp [visitInsts, instEdges, List.foldl_cons, procEdge, ih]

lemma visitKids_fold (s : Store) (ctl : TreeIntegCtl) (p : Nat)
    (vf : Nat → IntegrityVisitor → Option IntegrityVisitor)
    (ef : Nat → Option (List Edge))
    (hco : ∀ (c : Nat) (st : IntegrityVisitor),
      vf c st = (ef c).map (fun l => l.foldl (procEdge s ctl) st)) :
    ∀ (cs : List Nat) (idx : Nat) (st : IntegrityVisitor),
    visitKidsWith vf s ctl p cs idx st =
      (edgeKidsWith ef ctl p cs idx).map (fun l => l.foldl (procEdge s ctl) st) := by
  intro cs
  induction cs with
  | nil => intro idx st; simp [visitKidsWith, edgeKidsWith]
  | cons c cs ih =>
    intro idx st
    by_cases hmode : ctl.visitMode = BatchMode
    · rw [visitKidsWith, edgeKidsWith, if_pos hmode, if_pos hmode, hco c st]
      cases hef : ef c with
      | none => simp
      | some l1 =>
        simp only [Option.map_some']
        rw [ih (idx + 1) (setParent s ctl c p idx (l1.foldl (procEdge s ctl) st))]
        cases hef2 : edgeKidsWith ef ctl p cs (idx + 1) with
        | none => simp
        | some l2 =>
          simp only [Option.map_some', List.foldl_append, List.foldl_cons]
          rfl
    · rw [visitKidsWith, edgeKidsWith, if_neg hmode, if_neg hmode]
      have hred : (match (some st : Option IntegrityVisitor) with
          | none => none
          | some st1 => visitKidsWith vf s ctl p cs (idx + 1) (setParent s ctl c p idx st1)) =
          visitKidsWith vf s ctl p cs (idx + 1) (setParent s ctl c p idx st) := rfl
      rw [hred, ih (idx + 1) (setParent s ctl c p idx st)]
      cases hef2 : edgeKidsWith ef ctl p cs (idx + 1) with
      | none => simp
      | some l2 =>
        simp only [Option.map_some', List.nil_append, List.foldl_cons]
        rfl

/-- The traversal of `visit` is the left fold of edge processing over the
edge sequence of `edgeList`. -/
lemma visit_fold (s : Store) (ctl : TreeIntegCtl) :
    ∀ (fuel node : Nat) (st : IntegrityVisitor),
    visit s ctl fuel node st =
      (edgeList s ctl fuel node).map (fun l => l.foldl (procEdge s ctl) st) := by
  intro fuel
  induction fuel with
  | zero => intro node st; simp [visit, edgeList]
  | succ fuel ih =>
    intro node st
    rw [visit, edgeList]
    rw [visitKids_fold s ctl node (visit s ctl fuel) (edgeList s ctl fuel)
      (fun c st' => ih c st') (nodeAt s node).children 0 st]
    cases hek : edgeKidsWith (edgeList s ctl fuel) ctl node (nodeAt s node).children 0 with
    | none => simp
    | some l =>
      simp only [Option.map_some']
      by_cases hstmt : isStmtFlavor (nodeAt s node).flavor = true
      · simp [hstmt]
      · simp only [hstmt, if_false, Bool.false_eq_true]
        rw [visitInsts_fold s ctl]
        simp [List.foldl_append]

lemma setParent_iparent (s : Store) (ctl : TreeIntegCtl) (c p i : Nat) (st : IntegrityVisitor) :
    (setParent s ctl c p i st).iparent = st.iparent := by
  unfold setParent
  repeat' split
  all_goals rfl

lemma setParent_instCount (s : Store) (ctl : TreeIntegCtl) (c p i : Nat) (st : IntegrityVisitor) :
    (setParent s ctl c p i st).instShareCount = st.instShareCount := by
  unfold setParent
  repeat' split
  all_goals rfl

lemma setParent_stmtCount_le (s : Store) (ctl : TreeIntegCtl) (c p i : Nat)
    (st : IntegrityVisitor) :
    st.stmtShareCount ≤ (setParent s ctl c p i st).stmtShareCount := by
  unfold setParent
  repeat' split
  all_goals simp

lemma setParent_exprCount_le (s : Store) (ctl : TreeIntegCtl) (c p i : Nat)
    (st : IntegrityVisitor) :
    st.exprShareCount ≤ (setParent s ctl c p i st).exprShareCount := by
  unfold setParent
  repeat' split
  all_goals simp

lemma setParent_sharing_mono (s : Store) (ctl : TreeIntegCtl) (c p i : Nat)
    (st : IntegrityVisitor) :
    ∀ x ∈ st.sharing, x ∈ (setParent s ctl c p i st).sharing := by
  intro x hx
  unfold setParent
  repeat' split
  all_goals simp_all

lemma setParent_diag_mono (s : Store) (ctl : TreeIntegCtl) (c p i : Nat)
    (st : IntegrityVisitor) :
    ∀ e ∈ st.diag, e ∈ (setParent s ctl c p i st).diag := by
  intro e he
  unfold setParent
  repeat' split
  all_goals simp_all

lemma setParentInst_nparent (ii p j : Nat) (st : IntegrityVisitor) :
    (setParentInst ii p j st).nparent = st.nparent := by
  unfold setParentInst
  repeat' split
  all_goals rfl

lemma setParentInst_sharing (ii p j : Nat) (st : IntegrityVisitor) :
    (setParentInst ii p j st).sharing = st.sharing := by
  unfold setParentInst
  repeat' split
  all_goals rfl

lemma setParentInst_stmtCount (ii p j : Nat) (st : IntegrityVisitor) :
    (setParentInst ii p j st).stmtShareCount = st.stmtShareCount := by
  unfold setParentInst
  repeat' split
  all_goals rfl

lemma setParentInst_exprCount (ii p j : Nat) (st : IntegrityVisitor) :
    (setParentInst ii p j st).exprShareCount = st.exprShareCount := by
  unfold setParentInst
  repeat' split
  all_goals rfl

lemma setParentInst_instCount_le (ii p j : Nat) (st : IntegrityVisitor) :
    st.instShareCount ≤ (setParentInst ii p j st).instShareCount := by
  unfold setParentInst
  repeat' split
  all_goals simp

lemma setParentInst_diag_mono (ii p j : Nat) (st : IntegrityVisitor) :
    ∀ e ∈ st.diag, e ∈ (setParentInst ii p j st).diag := by
  intro e he
  unfold setParentInst
  repeat' split
  all_goals simp_all

lemma setParent_nparent_stable (s : Store) (ctl : TreeIntegCtl) (c p i : Nat)
    (st : IntegrityVisitor) (c' : Nat) (v : Nat × Nat)
    (h : alook c' st.nparent = some v) :
    alook c' (setParent s ctl c p i st).nparent = some v := by
  unfold setParent
  by_cases htr : shouldBeTracked (nodeAt s c) = false
  · simp [htr, h]
  · simp only [htr, if_false]
    cases hl : alook c st.nparent with
    | some prev =>
      repeat' split
      all_goals simp_all
    | none =>
      simp only []
      have hne : ¬(c = c') := by
        intro he
        subst he
        rw [hl] at h
        cases h
      simpa [alook, hne] using h

lemma setParentInst_iparent_stable (ii p j : Nat) (st : IntegrityVisitor)
    (c' : Nat) (v : Nat × Nat) (h : alook c' st.iparent = some v) :
    alook c' (setParentInst ii p j st).iparent = some v := by
  unfold setParentInst
  cases hl : alook ii st.iparent with
  | some prev =>
    repeat' split
    all_goals simp_all
  | none =>
    have hne : ¬(ii = c') := by
      intro he
      subst he
      rw [hl] at h
      cases h
    simpa [alook, hne] using h

lemma setParent_eq_untracked (s : Store) (ctl : TreeIntegCtl) (c p i : Nat)
    (st : IntegrityVisitor) (htrk : shouldBeTracked (nodeAt s c) = false) :
    setParent s ctl c p i st = st := by
  simp [setParent, htrk]

lemma setParent_eq_first (s : Store) (ctl : TreeIntegCtl) (c p i : Nat)
    (st : IntegrityVisitor) (htrk : shouldBeTracked (nodeAt s c) = true)
    (hl : alook c st.nparent = none) :
    setParent s ctl c p i st = { st with nparent := (c, p, i) :: st.nparent } := by
  simp [setParent, htrk, hl]

lemma setParent_eq_same (s : Store) (ctl : TreeIntegCtl) (c p i : Nat)
    (st : IntegrityVisitor) (prev : Nat × Nat)
    (htrk : shouldBeTracked (nodeAt s c) = true)
    (hl : alook c st.nparent = some prev)
    (hsame : prev.1 = p ∧ prev.2 = i) :
    setParent s ctl c p i st = st := by
  simp [setParent, htrk, hl, hsame]

lemma setParent_eq_error (s : Store) (ctl : TreeIntegCtl) (c p i : Nat)
    (st : IntegrityVisitor) (prev : Nat × Nat)
    (htrk : shouldBeTracked (nodeAt s c) = true)
    (hl : alook c st.nparent = some prev)
    (hne : ¬(prev.1 = p ∧ prev.2 = i))
    (herr : (nodeAt s c).flavor = N_Error) :
    setParent s ctl c p i st = st := by
  simp [setParent, htrk, hl, hne, herr]

lemma setParent_eq_dup (s : Store) (ctl : TreeIntegCtl) (c p i : Nat)
    (st : IntegrityVisitor) (prev : Nat × Nat)
    (htrk : shouldBeTracked (nodeAt s c) = true)
    (hl : alook c st.nparent = some prev)
    (hne : ¬(prev.1 = p ∧ prev.2 = i))
    (herr : (nodeAt s c).flavor ≠ N_Error)
    (hsh : (p, i) ∈ st.sharing) :
    setParent s ctl c p i st = st := by
  simp [setParent, htrk, hl, hne, herr, hsh]

lemma setParent_eq_suppressed (s : Store) (ctl : TreeIntegCtl) (c p i : Nat)
    (st : IntegrityVisitor) (prev : Nat × Nat)
    (htrk : shouldBeTracked (nodeAt s c) = true)
    (hl : alook c st.nparent = some prev)
    (hne : ¬(prev.1 = p ∧ prev.2 = i))
    (herr : (nodeAt s c).flavor ≠ N_Error)
    (hsh : (p, i) ∉ st.sharing)
    (hsup : isStmtFlavor (nodeAt s c).flavor = false ∧
      ctl.repairDisp = DontReportRepairableSharing ∧
      repairableSubTree s ctl.rfuel c = some true) :
    setParent s ctl c p i st = { st with sharing := st.sharing ++ [(p, i)] } := by
  simp [setParent, htrk, hl, hne, herr, hsh, hsup]

lemma setParent_eq_stmt (s : Store) (ctl : TreeIntegCtl) (c p i : Nat)
    (st : IntegrityVisitor) (prev : Nat × Nat)
    (htrk : shouldBeTracked (nodeAt s c) = true)
    (hl : alook c st.nparent = some prev)
    (hne : ¬(prev.1 = p ∧ prev.2 = i))
    (herr : (nodeAt s c).flavor ≠ N_Error)
    (hsh : (p, i) ∉ st.sharing)
    (hstm : isStmtFlavor (nodeAt s c).flavor = true) :
    setParent s ctl c p i st =
      { st with sharing := st.sharing ++ [(p, i)],
                stmtShareCount := st.stmtShareCount + 1,
                diag := st.diag ++ [DiagEvent.nodeShare true c prev.1 p] } := by
  simp [setParent, htrk, hl, hne, herr, hsh, hstm]

lemma setParent_eq_expr (s : Store) (ctl : TreeIntegCtl) (c p i : Nat)
    (st : IntegrityVisitor) (prev : Nat × Nat)
    (htrk : shouldBeTracked (nodeAt s c) = true)
    (hl : alook c st.nparent = some prev)
    (hne : ¬(prev.1 = p ∧ prev.2 = i))
    (herr : (nodeAt s c).flavor ≠ N_Error)
    (hsh : (p, i) ∉ st.sharing)
    (hstm : isStmtFlavor (nodeAt s c).flavor = false)
    (hnsup : ¬(ctl.repairDisp = DontReportRepairableSharing ∧
      repairableSubTree s ctl.rfuel c = some true)) :
    setParent s ctl c p i st =
      { st with sharing := st.sharing ++ [(p, i)],
                exprShareCount := st.exprShareCount + 1,
                diag := st.diag ++ [DiagEvent.nodeShare false c prev.1 p] } := by
  simp [setParent, htrk, hl, hne, herr, hsh, hstm, hnsup]

lemma setParentInst_eq_first (ii p j : Nat) (st : IntegrityVisitor)
    (hl : alook ii st.iparent = none) :
    setParentInst ii p j st = { st with iparent := (ii, p, j) :: st.iparent } := by
  simp [setParentInst, hl]

lemma setParentInst_eq_same (ii p j : Nat) (st : IntegrityVisitor) (prev : Nat × Nat)
    (hl : alook ii st.iparent = some prev)
    (hsame : prev.1 = p ∧ prev.2 = j) :
    setParentInst ii p j st = st := by
  simp [setParentInst, hl, hsame]

lemma setParentInst_eq_conflict (ii p j : Nat) (st : IntegrityVisitor) (prev : Nat × Nat)
    (hl : alook ii st.iparent = some prev)
    (hne : ¬(prev.1 = p ∧ prev.2 = j)) :
    setParentInst ii p j st =
      { st with instShareCount := st.instShareCount + 1,
                diag := st.diag ++ [DiagEvent.instShare ii prev.1 p] } := by
  simp [setParentInst, hl, hne]

/-- Exhaustive case split over the branches of `setParent`, packaging the
facts each branch provides. -/
lemma setParent_branches (s : Store) (ctl : TreeIntegCtl) (c p i : Nat)
    (st : IntegrityVisitor) :
    setParent s ctl c p i st = st ∨
    (alook c st.nparent = none ∧ shouldBeTracked (nodeAt s c) = true ∧
      setParent s ctl c p i st = { st with nparent := (c, p, i) :: st.nparent }) ∨
    (∃ prev, alook c st.nparent = some prev ∧ shouldBeTracked (nodeAt s c) = true ∧
      (nodeAt s c).flavor ≠ N_Error ∧ (p, i) ∉ st.sharing ∧
      ((isStmtFlavor (nodeAt s c).flavor = false ∧
          ctl.repairDisp = DontReportRepairableSharing ∧
          setParent s ctl c p i st = { st with sharing := st.sharing ++ [(p, i)] }) ∨
       (isStmtFlavor (nodeAt s c).flavor = true ∧
          setParent s ctl c p i st =
            { st with sharing := st.sharing ++ [(p, i)],
                      stmtShareCount := st.stmtShareCount + 1,
                      diag := st.diag ++ [DiagEvent.nodeShare true c prev.1 p] }) ∨
       (isStmtFlavor (nodeAt s c).flavor = false ∧
          setParent s ctl c p i st =
            { st with sharing := st.sharing ++ [(p, i)],
                      exprShareCount := st.exprShareCount + 1,
                      diag := st.diag ++ [DiagEvent.nodeShare false c prev.1 p] }))) := by
  cases htrk : shouldBeTracked (nodeAt s c) with
  | false => exact Or.inl (setParent_eq_untracked s ctl c p i st htrk)
  | true =>
    cases hl : alook c st.nparent with
    | none => exact Or.inr (Or.inl ⟨rfl, rfl, setParent_eq_first s ctl c p i st htrk hl⟩)
    | some prev =>
      by_cases hsame : prev.1 = p ∧ prev.2 = i
      · exact Or.inl (setParent_eq_same s ctl c p i st prev htrk hl hsame)
      · by_cases herr : (nodeAt s c).flavor = N_Error
        · exact Or.inl (setParent_eq_error s ctl c p i st prev htrk hl hsame herr)
        · by_cases hsh : (p, i) ∈ st.sharing
          · exact Or.inl (setParent_eq_dup s ctl c p i st prev htrk hl hsame herr hsh)
          · cases hstm : isStmtFlavor (nodeAt s c).flavor with
            | true =>
              refine Or.inr (Or.inr ⟨prev, rfl, rfl, herr, hsh, Or.inr (Or.inl ⟨rfl, ?_⟩)⟩)
              exact setParent_eq_stmt s ctl c p i st prev htrk hl hsame herr hsh hstm
            | false =>
              by_cases hsup : ctl.repairDisp = DontReportRepairableSharing ∧
                  repairableSubTree s ctl.rfuel c = some true
              · refine Or.inr (Or.inr ⟨prev, rfl, rfl, herr, hsh,
                  Or.inl ⟨rfl, hsup.1, ?_⟩⟩)
                exact setParent_eq_suppressed s ctl c p i st prev htrk hl hsame herr hsh
                  ⟨hstm, hsup.1, hsup.2⟩
              · refine Or.inr (Or.inr ⟨prev, rfl, rfl, herr, hsh,
                  Or.inr (Or.inr ⟨rfl, ?_⟩)⟩)
                exact setParent_eq_expr s ctl c p i st prev htrk hl hsame herr hsh hstm hsup

lemma countP_append_singleton_true (l : List DiagEvent) (e : DiagEvent)
    (q : DiagEvent → Bool) (h : q e = true) :
    (l ++ [e]).countP q = l.countP q + 1 := by
  simp [List.countP_append, List.countP_cons, h]

lemma countP_append_singleton_false (l : List DiagEvent) (e : DiagEvent)
    (q : DiagEvent → Bool) (h : q e = false) :
    (l ++ [e]).countP q = l.countP q := by
  simp [List.countP_append, List.countP_cons, h]

lemma setParent_diagBound (s : Store) (ctl : TreeIntegCtl) (c p i : Nat)
    (st : IntegrityVisitor) (hd : diagBound st) :
    diagBound (setParent s ctl c p i st) := by
  obtain ⟨d1, d2, d3⟩ := hd
  rcases setParent_branches s ctl c p i st with heq | ⟨hl, htrk, heq⟩ |
    ⟨prev, hl, htrk, herr, hsh, hbr⟩
  · rw [heq]; exact ⟨d1, d2, d3⟩
  · rw [heq]; exact ⟨d1, d2, d3⟩
  · rcases hbr with ⟨h1, h2, heq⟩ | ⟨h1, heq⟩ | ⟨h1, heq⟩
    · rw [heq]; exact ⟨d1, d2, d3⟩
    · rw [heq]
      refine ⟨?_, ?_, ?_⟩
      · show st.stmtShareCount + 1 ≤ (st.diag ++
          [DiagEvent.nodeShare true c prev.1 p]).countP (fun e => isNodeShareEv true e)
        rw [countP_append_singleton_true _ _ _ rfl]
        omega
      · show st.exprShareCount ≤ (st.diag ++
          [DiagEvent.nodeShare true c prev.1 p]).countP (fun e => isNodeShareEv false e)
        rw [countP_append_singleton_false _ _ _ rfl]
        omega
      · show st.instShareCount ≤ (st.diag ++
          [DiagEvent.nodeShare true c prev.1 p]).countP (fun e => isInstShareEv e)
        rw [countP_append_singleton_false _ _ _ rfl]
        omega
    · rw [heq]
      refine ⟨?_, ?_, ?_⟩
      · show st.stmtShareCount ≤ (st.diag ++
          [DiagEvent.nodeShare false c prev.1 p]).countP (fun e => isNodeShareEv true e)
        rw [countP_append_singleton_false _ _ _ rfl]
        omega
      · show st.exprShareCount + 1 ≤ (st.diag ++
          [DiagEvent.nodeShare false c prev.1 p]).countP (fun e => isNodeShareEv false e)
        rw [countP_append_singleton_true _ _ _ rfl]
        omega
      · show st.instShareCount ≤ (st.diag ++
          [DiagEvent.nodeShare false c prev.1 p]).countP (fun e => isInstShareEv e)
        rw [countP_append_singleton_false _ _ _ rfl]
        omega

lemma setParentInst_diagBound (ii p j : Nat) (st : IntegrityVisitor)
    (hd : diagBound st) : diagBound (setParentInst ii p j st) := by
  obtain ⟨d1, d2, d3⟩ := hd
  cases hl : alook ii st.iparent with
  | none =>
    rw [setParentInst_eq_first ii p j st hl]
    exact ⟨d1, d2, d3⟩
  | some prev =>
    by_cases hsame : prev.1 = p ∧ prev.2 = j
    · rw [setParentInst_eq_same ii p j st prev hl hsame]
      exact ⟨d1, d2, d3⟩
    · rw [setParentInst_eq_conflict ii p j st prev hl hsame]
      refine ⟨?_, ?_, ?_⟩
      · show st.stmtShareCount ≤ (st.diag ++
          [DiagEvent.instShare ii prev.1 p]).countP (fun e => isNodeShareEv true e)
        rw [countP_append_singleton_false _ _ _ rfl]
        omega
      · show st.exprShareCount ≤ (st.diag ++
          [DiagEvent.instShare ii prev.1 p]).countP (fun e => isNodeShareEv false e)
        rw [countP_append_singleton_false _ _ _ rfl]
        omega
      · show st.instShareCount + 1 ≤ (st.diag ++
          [DiagEvent.instShare ii prev.1 p]).countP (fun e => isInstShareEv e)
        rw [countP_append_singleton_true _ _ _ rfl]
        omega

lemma setParentInst_classCnt (stmtq : Bool) (ii p j : Nat) (st : IntegrityVisitor) :
    classCnt stmtq (setParentInst ii p j st) = classCnt stmtq st := by
  unfold classCnt
  rw [setParentInst_stmtCount, setParentInst_exprCount]

lemma setParent_classCnt_le (stmtq : Bool) (s : Store) (ctl : TreeIntegCtl)
    (c p i : Nat) (st : IntegrityVisitor) :
    classCnt stmtq st ≤ classCnt stmtq (setParent s ctl c p i st) := by
  unfold classCnt
  cases stmtq with
  | true => simpa using setParent_stmtCount_le s ctl c p i st
  | false => simpa using setParent_exprCount_le s ctl c p i st

lemma setParentInst_ledger (s : Store) (stmtq : Bool) (ii p j : Nat)
    (st : IntegrityVisitor) (hL : ledgerCounted s stmtq st) :
    ledgerCounted s stmtq (setParentInst ii p j st) := by
  intro ps hps hstq htr herr
  rw [setParentInst_sharing] at hps
  rw [setParentInst_classCnt]
  exact hL ps hps hstq htr herr

lemma setParent_ledger (s : Store) (ctl : TreeIntegCtl) (c p i : Nat)
    (st : IntegrityVisitor) (stmtq : Bool)
    (hcc : childAt s p i = c)
    (hrep : stmtq = false → ctl.repairDisp = ReportRepairableSharing)
    (hL : ledgerCounted s stmtq st) :
    ledgerCounted s stmtq (setParent s ctl c p i st) := by
  rcases setParent_branches s ctl c p i st with heq | ⟨hl, htrk, heq⟩ |
    ⟨prev, hl, htrk, herr0, hsh, hbr⟩
  · rw [heq]; exact hL
  · rw [heq]
    intro ps hps hstq htr2 herr2
    exact hL ps hps hstq htr2 herr2
  · rcases hbr with ⟨h1, h2, heq⟩ | ⟨h1, heq⟩ | ⟨h1, heq⟩
    · rw [heq]
      intro ps hps hstq htr2 herr2
      rcases List.mem_append.mp hps with hold | hnew
      · exact hL ps hold hstq htr2 herr2
      · have hpsq : ps = (p, i) := by simpa using hnew
        subst hpsq
        rw [hcc] at hstq
        cases stmtq with
        | true => rw [h1] at hstq; cases hstq
        | false =>
          have hq := hrep rfl
          rw [hq] at h2
          cases h2
    · rw [heq]
      intro ps hps hstq htr2 herr2
      cases stmtq with
      | true => simp [classCnt]
      | false =>
        rcases List.mem_append.mp hps with hold | hnew
        · have h0 := hL ps hold hstq htr2 herr2
          simpa [classCnt] using h0
        · have hpsq : ps = (p, i) := by simpa using hnew
          subst hpsq
          rw [hcc] at hstq
          rw [h1] at hstq
          cases hstq
    · rw [heq]
      intro ps hps hstq htr2 herr2
      cases stmtq with
      | false => simp [classCnt]
      | true =>
        rcases List.mem_append.mp hps with hold | hnew
        · have h0 := hL ps hold hstq htr2 herr2
          simpa [classCnt] using h0
        · have hpsq : ps = (p, i) := by simpa using hnew
          subst hpsq
          rw [hcc] at hstq
          rw [h1] at hstq
          cases hstq

lemma procEdge_ledger (s : Store) (ctl : TreeIntegCtl) (stmtq : Bool)
    (st : IntegrityVisitor) (e : Edge)
    (hok : (∀ c p i, e = Edge.node c p i → childAt s p i = c))
    (hrep : stmtq = false → ctl.repairDisp = ReportRepairableSharing)
    (hL : ledgerCounted s stmtq st) :
    ledgerCounted s stmtq (procEdge s ctl st e) := by
  cases e with
  | node c p i =>
    exact setParent_ledger s ctl c p i st stmtq (hok c p i rfl) hrep hL
  | inst ii p j =>
    exact setParentInst_ledger s stmtq ii p j st hL

lemma procEdge_diagBound (s : Store) (ctl : TreeIntegCtl) (st : IntegrityVisitor)
    (e : Edge) (hd : diagBound st) : diagBound (procEdge s ctl st e) := by
  cases e with
  | node c p i => exact setParent_diagBound s ctl c p i st hd
  | inst ii p j => exact setParentInst_diagBound ii p j st hd

lemma procEdge_classCnt_le (s : Store) (ctl : TreeIntegCtl) (stmtq : Bool)
    (st : IntegrityVisitor) (e : Edge) :
    classCnt stmtq st ≤ classCnt stmtq (procEdge s ctl st e) := by
  cases e with
  | node c p i => exact setParent_classCnt_le stmtq s ctl c p i st
  | inst ii p j =>
    show classCnt stmtq st ≤ classCnt stmtq (setParentInst ii p j st)
    rw [setParentInst_classCnt]

lemma procEdge_instCnt_le (s : Store) (ctl : TreeIntegCtl)
    (st : IntegrityVisitor) (e : Edge) :
    st.instShareCount ≤ (procEdge s ctl st e).instShareCount := by
  cases e with
  | node c p i =>
    show st.instShareCount ≤ (setParent s ctl c p i st).instShareCount
    rw [setParent_instCount]
  | inst ii p j => exact setParentInst_instCount_le ii p j st

lemma procEdge_nparent_stable (s : Store) (ctl : TreeIntegCtl)
    (st : IntegrityVisitor) (e : Edge) (c' : Nat) (v : Nat × Nat)
    (h : alook c' st.nparent = some v) :
    alook c' (procEdge s ctl st e).nparent = some v := by
  cases e with
  | node c p i => exact setParent_nparent_stable s ctl c p i st c' v h
  | inst ii p j =>
    show alook c' (setParentInst ii p j st).nparent = some v
    rw [setParentInst_nparent]
    exact h

lemma procEdge_iparent_stable (s : Store) (ctl : TreeIntegCtl)
    (st : IntegrityVisitor) (e : Edge) (c' : Nat) (v : Nat × Nat)
    (h : alook c' st.iparent = some v) :
    alook c' (procEdge s ctl st e).iparent = some v := by
  cases e with
  | node c p i =>
    show alook c' (setParent s ctl c p i st).iparent = some v
    rw [setParent_iparent]
    exact h
  | inst ii p j => exact setParentInst_iparent_stable ii p j st c' v h

lemma foldl_ledger (s : Store) (ctl : TreeIntegCtl) (stmtq : Bool)
    (hrep : stmtq = false → ctl.repairDisp = ReportRepairableSharing) :
    ∀ (l : List Edge) (st : IntegrityVisitor), EdgesOk s l → ledgerCounted s stmtq st →
    ledgerCounted s stmtq (l.foldl (procEdge s ctl) st) := by
  intro l
  induction l with
  | nil => intro st _ hL; exact hL
  | cons e l ih =>
    intro st hok hL
    rw [List.foldl_cons]
    refine ih (procEdge s ctl st e) (fun e' he' => hok e' (List.mem_cons_of_mem _ he')) ?_
    exact procEdge_ledger s ctl stmtq st e
      ((hok e (List.mem_cons_self _ _)).1) hrep hL

lemma foldl_diagBound (s : Store) (ctl : TreeIntegCtl) :
    ∀ (l : List Edge) (st : IntegrityVisitor), diagBound st →
    diagBound (l.foldl (procEdge s ctl) st) := by
  intro l
  induction l with
  | nil => intro st hd; exact hd
  | cons e l ih =>
    intro st hd
    rw [List.foldl_cons]
    exact ih (procEdge s ctl st e) (procEdge_diagBound s ctl st e hd)

lemma foldl_classCnt_le (s : Store) (ctl : TreeIntegCtl) (stmtq : Bool) :
    ∀ (l : List Edge) (st : IntegrityVisitor),
    classCnt stmtq st ≤ classCnt stmtq (l.foldl (procEdge s ctl) st) := by
  intro l
  induction l with
  | nil => intro st; exact Nat.le_refl _
  | cons e l ih =>
    intro st
    rw [List.foldl_cons]
    exact Nat.le_trans (procEdge_classCnt_le s ctl stmtq st e) (ih (procEdge s ctl st e))

lemma foldl_instCnt_le (s : Store) (ctl : TreeIntegCtl) :
    ∀ (l : List Edge) (st : IntegrityVisitor),
    st.instShareCount ≤ (l.foldl (procEdge s ctl) st).instShareCount := by
  intro l
  induction l with
  | nil => intro st; exact Nat.le_refl _
  | cons e l ih =>
    intro st
    rw [List.foldl_cons]
    exact Nat.le_trans (procEdge_instCnt_le s ctl st e) (ih (procEdge s ctl st e))

lemma foldl_nparent_stable (s : Store) (ctl : TreeIntegCtl) :
    ∀ (l : List Edge) (st : IntegrityVisitor) (c' : Nat) (v : Nat × Nat),
    alook c' st.nparent = some v →
    alook c' ((l.foldl (procEdge s ctl) st)).nparent = some v := by
  intro l
  induction l with
  | nil => intro st c' v h; exact h
  | cons e l ih =>
    intro st c' v h
    rw [List.foldl_cons]
    exact ih (procEdge s ctl st e) c' v (procEdge_nparent_stable s ctl st e c' v h)

lemma foldl_iparent_stable (s : Store) (ctl : TreeIntegCtl) :
    ∀ (l : List Edge) (st : IntegrityVisitor) (c' : Nat) (v : Nat × Nat),
    alook c' st.iparent = some v →
    alook c' ((l.foldl (procEdge s ctl) st)).iparent = some v := by
  intro l
  induction l with
  | nil => intro st c' v h; exact h
  | cons e l ih =>
    intro st c' v h
    rw [List.foldl_cons]
    exact ih (procEdge s ctl st e) c' v (procEdge_iparent_stable s ctl st e c' v h)

/-- A genuine conflict on a tracked, non-error child always leaves the class
counter positive: either it is counted now, or the candidate location was
already in the ledger and therefore already counted. -/
lemma setParent_conflict_counts (s : Store) (ctl : TreeIntegCtl) (c p i : Nat)
    (st : IntegrityVisitor) (stmtq : Bool) (prev : Nat × Nat)
    (hcc : childAt s p i = c)
    (hstq : isStmtFlavor (nodeAt s c).flavor = stmtq)
    (htrk : shouldBeTracked (nodeAt s c) = true)
    (herr : (nodeAt s c).flavor ≠ N_Error)
    (hl : alook c st.nparent = some prev)
    (hne : prev ≠ (p, i))
    (hrep : stmtq = false → ctl.repairDisp = ReportRepairableSharing)
    (hL : ledgerCounted s stmtq st) :
    0 < classCnt stmtq (setParent s ctl c p i st) := by
  have hne' : ¬(prev.1 = p ∧ prev.2 = i) := by
    intro hpq
    exact hne (Prod.ext hpq.1 hpq.2)
  by_cases hsh : (p, i) ∈ st.sharing
  · rw [setParent_eq_dup s ctl c p i st prev htrk hl hne' herr hsh]
    refine hL (p, i) hsh ?_ ?_ ?_ <;> simp [hcc, hstq, htrk, herr]
  · cases stmtq with
    | true =>
      rw [setParent_eq_stmt s ctl c p i st prev htrk hl hne' herr hsh hstq]
      simp [classCnt]
    | false =>
      have hnsup : ¬(ctl.repairDisp = DontReportRepairableSharing ∧
          repairableSubTree s ctl.rfuel c = some true) := by
        intro hd
        have hq := hrep rfl
        rw [hq] at hd
        cases hd.1
      rw [setParent_eq_expr s ctl c p i st prev htrk hl hne' herr hsh hstq hnsup]
      simp [classCnt]

/-- After processing an edge for a tracked, non-error child, the child has a
recorded parent, and any recorded parent other than the processed location
certifies an already positive class counter. -/
lemma setParent_records (s : Store) (ctl : TreeIntegCtl) (c p i : Nat)
    (st : IntegrityVisitor) (stmtq : Bool)
    (hcc : childAt s p i = c)
    (hstq : isStmtFlavor (nodeAt s c).flavor = stmtq)
    (htrk : shouldBeTracked (nodeAt s c) = true)
    (herr : (nodeAt s c).flavor ≠ N_Error)
    (hrep : stmtq = false → ctl.repairDisp = ReportRepairableSharing)
    (hL : ledgerCounted s stmtq st) :
    ∃ v, alook c (setParent s ctl c p i st).nparent = some v ∧
      (v = (p, i) ∨ 0 < classCnt stmtq (setParent s ctl c p i st)) := by
  cases hl : alook c st.nparent with
  | none =>
    refine ⟨(p, i), ?_, Or.inl rfl⟩
    rw [setParent_eq_first s ctl c p i st htrk hl]
    simp [alook]
  | some prev =>
    by_cases hsame : prev.1 = p ∧ prev.2 = i
    · refine ⟨prev, ?_, Or.inl (Prod.ext hsame.1 hsame.2)⟩
      rw [setParent_eq_same s ctl c p i st prev htrk hl hsame]
      exact hl
    · have hne : prev ≠ (p, i) := by
        intro h
        exact hsame ⟨by rw [h], by rw [h]⟩
      refine ⟨prev, setParent_nparent_stable s ctl c p i st c prev hl, Or.inr ?_⟩
      exact setParent_conflict_counts s ctl c p i st stmtq prev hcc hstq htrk herr hl hne
        hrep hL

lemma EdgesOk_sub (s : Store) (l l' : List Edge) (hsub : ∀ e ∈ l', e ∈ l)
    (h : EdgesOk s l) : EdgesOk s l' :=
  fun e he => h e (hsub e he)

lemma mem_mem_split {α : Type} : ∀ (l : List α) (a b : α), a ∈ l → b ∈ l → a ≠ b →
    ∃ l1 l2 l3, l = l1 ++ a :: l2 ++ b :: l3 ∨ l = l1 ++ b :: l2 ++ a :: l3 := by
  intro l
  induction l with
  | nil => intro a b ha; cases ha
  | cons x t ih =>
    intro a b ha hb hne
    by_cases hxa : x = a
    · subst hxa
      have hbt : b ∈ t := by
        rcases List.mem_cons.mp hb with h | h
        · exact absurd h.symm hne
        · exact h
      obtain ⟨s2, t2, hsplit⟩ := List.append_of_mem hbt
      exact ⟨[], s2, t2, Or.inl (by rw [hsplit]; rfl)⟩
    · by_cases hxb : x = b
      · subst hxb
        have hat : a ∈ t := by
          rcases List.mem_cons.mp ha with h | h
          · exact absurd h hne
          · exact h
        obtain ⟨s2, t2, hsplit⟩ := List.append_of_mem hat
        exact ⟨[], s2, t2, Or.inr (by rw [hsplit]; rfl)⟩
      · have hat : a ∈ t := by
          rcases List.mem_cons.mp ha with h | h
          · exact absurd h.symm hxa
          · exact h
        have hbt : b ∈ t := by
          rcases List.mem_cons.mp hb with h | h
          · exact absurd h.symm hxb
          · exact h
        obtain ⟨l1, l2, l3, hcase⟩ := ih a b hat hbt hne
        rcases hcase with h | h
        · exact ⟨x :: l1, l2, l3, Or.inl (by rw [h]; rfl)⟩
        · exact ⟨x :: l1, l2, l3, Or.inr (by rw [h]; rfl)⟩

/-- Two distinct recorded locations for the same tracked, non-error child
leave the class counter positive at the end of the fold. -/
lemma foldl_two_node_edges (s : Store) (ctl : TreeIntegCtl) (stmtq : Bool)
    (hrep : stmtq = false → ctl.repairDisp = ReportRepairableSharing)
    (l1 l2 l3 : List Edge) (c p1 i1 p2 i2 : Nat) (st0 : IntegrityVisitor)
    (hok : EdgesOk s (l1 ++ Edge.node c p1 i1 :: l2 ++ Edge.node c p2 i2 :: l3))
    (hL0 : ledgerCounted s stmtq st0)
    (hstq : isStmtFlavor (nodeAt s c).flavor = stmtq)
    (htrk : shouldBeTracked (nodeAt s c) = true)
    (herr : (nodeAt s c).flavor ≠ N_Error)
    (hne : (p1, i1) ≠ (p2, i2)) :
    0 < classCnt stmtq
      ((l1 ++ Edge.node c p1 i1 :: l2 ++ Edge.node c p2 i2 :: l3).foldl
        (procEdge s ctl) st0) := by
  have hcc1 : childAt s p1 i1 = c :=
    (hok (Edge.node c p1 i1) (by simp)).1 c p1 i1 rfl
  have hcc2 : childAt s p2 i2 = c :=
    (hok (Edge.node c p2 i2) (by simp)).1 c p2 i2 rfl
  rw [List.foldl_append, List.foldl_cons, List.foldl_append, List.foldl_cons]
  have hok1 : EdgesOk s l1 := EdgesOk_sub s _ l1 (by intro e he; simp [he]) hok
  have hok2 : EdgesOk s l2 := EdgesOk_sub s _ l2 (by intro e he; simp [he]) hok
  have hLA : ledgerCounted s stmtq (l1.foldl (procEdge s ctl) st0) :=
    foldl_ledger s ctl stmtq hrep l1 st0 hok1 hL0
  obtain ⟨v, hv, hvd⟩ := setParent_records s ctl c p1 i1
    (l1.foldl (procEdge s ctl) st0) stmtq hcc1 hstq htrk herr hrep hLA
  have hLB : ledgerCounted s stmtq
      (procEdge s ctl (l1.foldl (procEdge s ctl) st0) (Edge.node c p1 i1)) :=
    procEdge_ledger s ctl stmtq _ _ (fun c' p' i' hq => by cases hq; exact hcc1) hrep hLA
  have hLC : ledgerCounted s stmtq
      (l2.foldl (procEdge s ctl)
        (procEdge s ctl (l1.foldl (procEdge s ctl) st0) (Edge.node c p1 i1))) :=
    foldl_ledger s ctl stmtq hrep l2 _ hok2 hLB
  have hvC : alook c (l2.foldl (procEdge s ctl)
      (procEdge s ctl (l1.foldl (procEdge s ctl) st0) (Edge.node c p1 i1))).nparent =
      some v :=
    foldl_nparent_stable s ctl l2 _ c v hv
  rcases hvd with hv1 | hcnt
  · have hvne : v ≠ (p2, i2) := by rw [hv1]; exact hne
    have hpos : 0 < classCnt stmtq
        (setParent s ctl c p2 i2
          (l2.foldl (procEdge s ctl)
            (procEdge s ctl (l1.foldl (procEdge s ctl) st0) (Edge.node c p1 i1)))) :=
      setParent_conflict_counts s ctl c p2 i2 _ stmtq v hcc2 hstq htrk herr hvC hvne
        hrep hLC
    exact Nat.lt_of_lt_of_le hpos (foldl_classCnt_le s ctl stmtq l3 _)
  · have hcnt2 : 0 < classCnt stmtq
        (procEdge s ctl (l1.foldl (procEdge s ctl) st0) (Edge.node c p1 i1)) := hcnt
    have h1 : classCnt stmtq
        (procEdge s ctl (l1.foldl (procEdge s ctl) st0) (Edge.node c p1 i1)) ≤
        classCnt stmtq (l2.foldl (procEdge s ctl)
          (procEdge s ctl (l1.foldl (procEdge s ctl) st0) (Edge.node c p1 i1))) :=
      foldl_classCnt_le s ctl stmtq l2 _
    have h2 : classCnt stmtq (l2.foldl (procEdge s ctl)
        (procEdge s ctl (l1.foldl (procEdge s ctl) st0) (Edge.node c p1 i1))) ≤
        classCnt stmtq (procEdge s ctl
          (l2.foldl (procEdge s ctl)
            (procEdge s ctl (l1.foldl (procEdge s ctl) st0) (Edge.node c p1 i1)))
          (Edge.node c p2 i2)) :=
      procEdge_classCnt_le s ctl stmtq _ _
    have h3 := foldl_classCnt_le s ctl stmtq l3
      (procEdge s ctl
        (l2.foldl (procEdge s ctl)
          (procEdge s ctl (l1.foldl (procEdge s ctl) st0) (Edge.node c p1 i1)))
        (Edge.node c p2 i2))
    omega

lemma setParentInst_conflict_counts (ii p j : Nat) (st : IntegrityVisitor)
    (prev : Nat × Nat) (hl : alook ii st.iparent = some prev) (hne : prev ≠ (p, j)) :
    0 < (setParentInst ii p j st).instShareCount := by
  have hne' : ¬(prev.1 = p ∧ prev.2 = j) := by
    intro hpq
    exact hne (Prod.ext hpq.1 hpq.2)
  rw [setParentInst_eq_conflict ii p j st prev hl hne']
  simp

lemma setParentInst_records (ii p j : Nat) (st : IntegrityVisitor) :
    ∃ v, alook ii (setParentInst ii p j st).iparent = some v ∧
      (v = (p, j) ∨ 0 < (setParentInst ii p j st).instShareCount) := by
  cases hl : alook ii st.iparent with
  | none =>
    refine ⟨(p, j), ?_, Or.inl rfl⟩
    rw [setParentInst_eq_first ii p j st hl]
    simp [alook]
  | some prev =>
    by_cases hsame : prev.1 = p ∧ prev.2 = j
    · refine ⟨prev, ?_, Or.inl (Prod.ext hsame.1 hsame.2)⟩
      rw [setParentInst_eq_same ii p j st prev hl hsame]
      exact hl
    · have hne : prev ≠ (p, j) := by
        intro h
        exact hsame ⟨by rw [h], by rw [h]⟩
      refine ⟨prev, setParentInst_iparent_stable ii p j st ii prev hl, Or.inr ?_⟩
      exact setParentInst_conflict_counts ii p j st prev hl hne

/-- Two distinct recorded locations for the same instruction handle leave
the instruction-share counter positive at the end of the fold. -/
lemma foldl_two_inst_edges (s : Store) (ctl : TreeIntegCtl)
    (l1 l2 l3 : List Edge) (ii p1 j1 p2 j2 : Nat) (st0 : IntegrityVisitor)
    (hne : (p1, j1) ≠ (p2, j2)) :
    0 < ((l1 ++ Edge.inst ii p1 j1 :: l2 ++ Edge.inst ii p2 j2 :: l3).foldl
      (procEdge s ctl) st0).instShareCount := by
  rw [List.foldl_append, List.foldl_cons, List.foldl_append, List.foldl_cons]
  obtain ⟨v, hv, hvd⟩ := setParentInst_records ii p1 j1 (l1.foldl (procEdge s ctl) st0)
  have hvC : alook ii (l2.foldl (procEdge s ctl)
      (procEdge s ctl (l1.foldl (procEdge s ctl) st0) (Edge.inst ii p1 j1))).iparent =
      some v :=
    foldl_iparent_stable s ctl l2 _ ii v hv
  rcases hvd with hv1 | hcnt
  · have hvne : v ≠ (p2, j2) := by rw [hv1]; exact hne
    have hpos : 0 < (setParentInst ii p2 j2
        (l2.foldl (procEdge s ctl)
          (procEdge s ctl (l1.foldl (procEdge s ctl) st0) (Edge.inst ii p1 j1)))).instShareCount :=
      setParentInst_conflict_counts ii p2 j2 _ v hvC hvne
    have hpos2 : 0 < (procEdge s ctl
        (l2.foldl (procEdge s ctl)
          (procEdge s ctl (l1.foldl (procEdge s ctl) st0) (Edge.inst ii p1 j1)))
        (Edge.inst ii p2 j2)).instShareCount := hpos
    exact Nat.lt_of_lt_of_le hpos2 (foldl_instCnt_le s ctl l3 _)
  · have hcnt2 : 0 < (procEdge s ctl (l1.foldl (procEdge s ctl) st0)
        (Edge.inst ii p1 j1)).instShareCount := hcnt
    have h1 := foldl_instCnt_le s ctl l2
      (procEdge s ctl (l1.foldl (procEdge s ctl) st0) (Edge.inst ii p1 j1))
    have h2 := procEdge_instCnt_le s ctl
      (l2.foldl (procEdge s ctl)
        (procEdge s ctl (l1.foldl (procEdge s ctl) st0) (Edge.inst ii p1 j1)))
      (Edge.inst ii p2 j2)
    have h3 := foldl_instCnt_le s ctl l3
      (procEdge s ctl
        (l2.foldl (procEdge s ctl)
          (procEdge s ctl (l1.foldl (procEdge s ctl) st0) (Edge.inst ii p1 j1)))
        (Edge.inst ii p2 j2))
    omega

lemma getD_of_drop : ∀ (l : List Nat) (idx c : Nat) (cs : List Nat),
    l.drop idx = c :: cs → l.getD idx 0 = c := by
  intro l
  induction l with
  | nil => intro idx c cs h; rw [List.drop_nil] at h; cases h
  | cons x t ih =>
    intro idx c cs h
    cases idx with
    | zero =>
      have : x = c := by simpa using congrArg (fun l' => l'.headD 0) h
      simp [this]
    | succ n =>
      simp only [List.drop_succ_cons] at h
      simpa using ih n c cs h

lemma drop_of_drop_cons : ∀ (l : List Nat) (idx c : Nat) (cs : List Nat),
    l.drop idx = c :: cs → l.drop (idx + 1) = cs := by
  intro l
  induction l with
  | nil => intro idx c cs h; rw [List.drop_nil] at h; cases h
  | cons x t ih =>
    intro idx c cs h
    cases idx with
    | zero =>
      simpa using congrArg (fun l' => l'.drop 1) h
    | succ n =>
      simp only [List.drop_succ_cons] at h ⊢
      exact ih n c cs h

lemma EdgesOk_append (s : Store) (l1 l2 : List Edge)
    (h1 : EdgesOk s l1) (h2 : EdgesOk s l2) : EdgesOk s (l1 ++ l2) := by
  intro e he
  rcases List.mem_append.mp he with h | h
  · exact h1 e h
  · exact h2 e h

lemma instEdges_ok (s : Store) (p : Nat) :
    ∀ (is' : List Nat) (idx : Nat),
    (nodeAt s p).instructions.drop idx = is' →
    EdgesOk s (instEdges p is' idx) := by
  intro is'
  induction is' with
  | nil => intro idx _ e he; cases he
  | cons i0 is' ih =>
    intro idx hdrop e he
    rcases List.mem_cons.mp he with h | h
    · subst h
      constructor
      · intro c' p' i' hq; cases hq
      · intro ii' p' j' hq
        cases hq
        exact getD_of_drop _ idx i0 is' hdrop
    · exact ih (idx + 1) (drop_of_drop_cons _ idx i0 is' hdrop) e h

lemma edgeKids_ok (s : Store) (ctl : TreeIntegCtl) (ef : Nat → Option (List Edge))
    (p : Nat) (hef : ∀ c l', ef c = some l' → EdgesOk s l') :
    ∀ (cs : List Nat) (idx : Nat) (l : List Edge),
    (nodeAt s p).children.drop idx = cs →
    edgeKidsWith ef ctl p cs idx = some l → EdgesOk s l := by
  intro cs
  induction cs with
  | nil =>
    intro idx l _ hek
    have : l = [] := by simpa [edgeKidsWith] using hek.symm
    subst this
    intro e he
    cases he
  | cons c cs ih =>
    intro idx l hdrop hek
    rw [edgeKidsWith] at hek
    by_cases hmode : ctl.visitMode = BatchMode
    · rw [if_pos hmode] at hek
      cases hef1 : ef c with
      | none => rw [hef1] at hek; cases hek
      | some l1 =>
        rw [hef1] at hek
        cases hek2 : edgeKidsWith ef ctl p cs (idx + 1) with
        | none => rw [hek2] at hek; cases hek
        | some l2 =>
          rw [hek2] at hek
          have hl : l = l1 ++ Edge.node c p idx :: l2 := by
            simpa using hek.symm
          subst hl
          refine EdgesOk_append s l1 (Edge.node c p idx :: l2) (hef c l1 hef1) ?_
          intro e he
          rcases List.mem_cons.mp he with h | h
          · subst h
            constructor
            · intro c' p' i' hq
              cases hq
              exact getD_of_drop _ idx c cs hdrop
            · intro ii' p' j' hq; cases hq
          · exact ih (idx + 1) l2 (drop_of_drop_cons _ idx c cs hdrop) hek2 e h
    · rw [if_neg hmode] at hek
      cases hek2 : edgeKidsWith ef ctl p cs (idx + 1) with
      | none => rw [hek2] at hek; cases hek
      | some l2 =>
        rw [hek2] at hek
        have hl : l = [] ++ Edge.node c p idx :: l2 := by
          simpa using hek.symm
        subst hl
        intro e he
        rcases List.mem_cons.mp (by simpa using he) with h | h
        · subst h
          constructor
          · intro c' p' i' hq
            cases hq
            exact getD_of_drop _ idx c cs hdrop
          · intro ii' p' j' hq; cases hq
        · exact ih (idx + 1) l2 (drop_of_drop_cons _ idx c cs hdrop) hek2 e h

/-- Every edge recorded by the traversal carries exactly the child (or
instruction) installed at its location in the store. -/
lemma edgeList_ok (s : Store) (ctl : TreeIntegCtl) :
    ∀ (fuel n : Nat) (l : List Edge), edgeList s ctl fuel n = some l → EdgesOk s l := by
  intro fuel
  induction fuel with
  | zero => intro n l h; cases h
  | succ fuel ih =>
    intro n l h
    rw [edgeList] at h
    cases hek : edgeKidsWith (edgeList s ctl fuel) ctl n (nodeAt s n).children 0 with
    | none => rw [hek] at h; cases h
    | some l0 =>
      rw [hek] at h
      have hok0 : EdgesOk s l0 :=
        edgeKids_ok s ctl (edgeList s ctl fuel) n (fun c l' hc => ih c l' hc)
          (nodeAt s n).children 0 l0 (by simp) hek
      by_cases hstmt : isStmtFlavor (nodeAt s n).flavor = true
      · simp only [hstmt, if_true] at h
        have : l = l0 := by simpa using h.symm
        subst this
        exact hok0
      · simp only [hstmt, if_false, Bool.false_eq_true] at h
        have : l = l0 ++ instEdges n (nodeAt s n).instructions 0 := by
          simpa using h.symm
        subst this
        exact EdgesOk_append s _ _ hok0 (instEdges_ok s n _ 0 (by simp))

lemma stmt_tracked (nd : Bnode) (h : isStmtFlavor nd.flavor = true) :
    shouldBeTracked nd = true := by
  simp [shouldBeTracked, h]

lemma stmt_not_error (nd : Bnode) (h : isStmtFlavor nd.flavor = true) :
    nd.flavor ≠ N_Error := by
  intro he
  rw [he] at h
  simp [isStmtFlavor] at h

lemma expr_tracked (nd : Bnode) (hms : nd.isModuleScopeValue = false) :
    shouldBeTracked nd = true := by
  simp [shouldBeTracked, hms]

lemma repairable_root_ok (s : Store) (f c : Nat)
    (h : repairableSubTree s f c = some true) : okNodeB (nodeAt s c) = true :=
  (repairableSubTree_iff_whitelist s f c true h).mp rfl c (Reaches.refl c)

lemma okNode_not_error (nd : Bnode) (h : okNodeB nd = true) : nd.flavor ≠ N_Error := by
  intro he
  simp [okNodeB, he, acceptableFlavor] at h

lemma okNode_not_stmtf (nd : Bnode) (h : okNodeB nd = true) :
    isStmtFlavor nd.flavor = false := by
  cases hf : nd.flavor <;> simp [okNodeB, acceptableFlavor, hf, isStmtFlavor] at h ⊢

lemma examine_eq_fail_counts (s : Store) (ctl : TreeIntegCtl) (fuel node : Nat)
    (st : IntegrityVisitor) (g : BackendState) (st1 : IntegrityVisitor)
    (hv : visit s ctl fuel node st = some st1)
    (hfail : st1.instShareCount ≠ 0 ∨ st1.stmtShareCount ≠ 0) :
    examine s ctl fuel node st g = some (false, s, st1, g) := by
  unfold examine
  rw [hv]
  simp [hfail]

lemma examine_eq_fail_expr (s : Store) (ctl : TreeIntegCtl) (fuel node : Nat)
    (st : IntegrityVisitor) (g : BackendState) (st1 : IntegrityVisitor)
    (hv : visit s ctl fuel node st = some st1)
    (hexpr : st1.exprShareCount ≠ 0) :
    examine s ctl fuel node st g = some (false, s, st1, g) := by
  unfold examine
  rw [hv]
  by_cases h1 : st1.instShareCount ≠ 0 ∨ st1.stmtShareCount ≠ 0
  · simp [h1]
  · simp [h1, hexpr]

lemma diag_event_of_countP_pos (lst : List DiagEvent) (q : DiagEvent → Bool)
    (h : 0 < lst.countP q) : ∃ e ∈ lst, q e = true := by
  by_contra hno
  push_neg at hno
  have : lst.countP q = 0 := by
    rw [List.countP_eq_zero]
    intro e he
    exact hno e he
  omega

lemma initIV_ledger (s : Store) (stmtq : Bool) : ledgerCounted s stmtq initIV := by
  intro ps hps
  cases hps

lemma initIV_diagBound : diagBound initIV := by
  refine ⟨?_, ?_, ?_⟩ <;> simp [initIV]

/-- C6 (amended): whenever the traversal of `examine` records a Statement
child at two distinct (parent, slot) locations, or an instruction handle at
two distinct locations — in Batch mode this covers every attachment in the
subtree, in Incremental mode the examined node's direct attachments —
`examine` returns failure with the tree untouched, the statement- or
instruction-share counter is positive, and a diagnostic has been emitted.
No whitelist, suppression, or repair path applies to statements or
instructions. -/
theorem examine_fails_on_stmt_or_inst_sharing
    (s : Store) (ctl : TreeIntegCtl) (fuel root : Nat) (g : BackendState) (l : List Edge)
    (hel : edgeList s ctl fuel root = some l)
    (hsh :
      (∃ c p1 i1 p2 i2, Edge.node c p1 i1 ∈ l ∧ Edge.node c p2 i2 ∈ l ∧
        (p1, i1) ≠ (p2, i2) ∧ isStmtFlavor (nodeAt s c).flavor = true) ∨
      (∃ ii p1 j1 p2 j2, Edge.inst ii p1 j1 ∈ l ∧ Edge.inst ii p2 j2 ∈ l ∧
        (p1, j1) ≠ (p2, j2))) :
    ∃ st1, examine s ctl fuel root initIV g = some (false, s, st1, g) ∧
      (0 < st1.stmtShareCount ∨ 0 < st1.instShareCount) ∧ st1.diag ≠ [] := by
  have hv : visit s ctl fuel root initIV = some (l.foldl (procEdge s ctl) initIV) := by
    rw [visit_fold, hel]
    rfl
  have hdb : diagBound (l.foldl (procEdge s ctl) initIV) :=
    foldl_diagBound s ctl l initIV initIV_diagBound
  have hok : EdgesOk s l := edgeList_ok s ctl fuel root l hel
  have hcnt : 0 < (l.foldl (procEdge s ctl) initIV).stmtShareCount ∨
      0 < (l.foldl (procEdge s ctl) initIV).instShareCount := by
    rcases hsh with ⟨c, p1, i1, p2, i2, h1, h2, hne, hstq⟩ |
      ⟨ii, p1, j1, p2, j2, h1, h2, hne⟩
    · left
      have hne' : Edge.node c p1 i1 ≠ Edge.node c p2 i2 := by
        intro h
        injection h with hc hp hi
        exact hne (by rw [hp, hi])
      have hrep : (true : Bool) = false → ctl.repairDisp = ReportRepairableSharing := by
        intro h; cases h
      obtain ⟨l1, l2, l3, hcase⟩ := mem_mem_split l _ _ h1 h2 hne'
      rcases hcase with hdec | hdec
      · have hpos := foldl_two_node_edges s ctl true hrep l1 l2 l3 c p1 i1 p2 i2 initIV
          (hdec ▸ hok) (initIV_ledger s true) hstq
          (stmt_tracked _ hstq) (stmt_not_error _ hstq) hne
        rw [hdec]
        simpa [classCnt] using hpos
      · have hpos := foldl_two_node_edges s ctl true hrep l1 l2 l3 c p2 i2 p1 i1 initIV
          (hdec ▸ hok) (initIV_ledger s true) hstq
          (stmt_tracked _ hstq) (stmt_not_error _ hstq) (fun h => hne h.symm)
        rw [hdec]
        simpa [classCnt] using hpos
    · right
      have hne' : Edge.inst ii p1 j1 ≠ Edge.inst ii p2 j2 := by
        intro h
        injection h with hc hp hi
        exact hne (by rw [hp, hi])
      obtain ⟨l1, l2, l3, hcase⟩ := mem_mem_split l _ _ h1 h2 hne'
      rcases hcase with hdec | hdec
      · have hpos := foldl_two_inst_edges s ctl l1 l2 l3 ii p1 j1 p2 j2 initIV hne
        rw [hdec]
        exact hpos
      · have hpos := foldl_two_inst_edges s ctl l1 l2 l3 ii p2 j2 p1 j1 initIV
          (fun h => hne h.symm)
        rw [hdec]
        exact hpos
  refine ⟨l.foldl (procEdge s ctl) initIV,
    examine_eq_fail_counts s ctl fuel root initIV g _ hv ?_, hcnt, ?_⟩
  · rcases hcnt with h | h
    · exact Or.inr (by omega)
    · exact Or.inl (by omega)
  · intro hnil
    obtain ⟨d1, d2, d3⟩ := hdb
    rw [hnil] at d1 d3
    simp [List.countP_nil] at d1 d3
    omega

/-- C1 (amended): a repairable (whitelisted) shared Expression subtree,
recorded at two distinct (parent, slot) locations during a Batch-mode
traversal with reporting of repairable sharing NOT suppressed, is still
logged (an expression-share diagnostic is emitted and the counter is
incremented), but `examine` then returns failure without invoking repair:
the store and backend state are returned unchanged. -/
theorem examine_batch_reports_then_fails_on_repairable_sharing
    (s : Store) (fuel root rf rf2 : Nat) (g : BackendState) (l : List Edge)
    (c p1 i1 p2 i2 : Nat)
    (hel : edgeList s ⟨BatchMode, ReportRepairableSharing, rf⟩ fuel root = some l)
    (h1 : Edge.node c p1 i1 ∈ l) (h2 : Edge.node c p2 i2 ∈ l)
    (hne : (p1, i1) ≠ (p2, i2))
    (hms : (nodeAt s c).isModuleScopeValue = false)
    (hwl : repairableSubTree s rf2 c = some true) :
    ∃ st1, examine s ⟨BatchMode, ReportRepairableSharing, rf⟩ fuel root initIV g =
        some (false, s, st1, g) ∧
      0 < st1.exprShareCount ∧
      ∃ ev ∈ st1.diag, isNodeShareEv false ev = true := by
  have hokc : okNodeB (nodeAt s c) = true := repairable_root_ok s rf2 c hwl
  have hstq : isStmtFlavor (nodeAt s c).flavor = false := okNode_not_stmtf _ hokc
  have herr : (nodeAt s c).flavor ≠ N_Error := okNode_not_error _ hokc
  have htrk : shouldBeTracked (nodeAt s c) = true := expr_tracked _ hms
  have hv : visit s ⟨BatchMode, ReportRepairableSharing, rf⟩ fuel root initIV =
      some (l.foldl (procEdge s ⟨BatchMode, ReportRepairableSharing, rf⟩) initIV) := by
    rw [visit_fold, hel]
    rfl
  have hdb : diagBound (l.foldl (procEdge s ⟨BatchMode, ReportRepairableSharing, rf⟩) initIV) :=
    foldl_diagBound s _ l initIV initIV_diagBound
  have hok : EdgesOk s l := edgeList_ok s _ fuel root l hel
  have hrep : (false : Bool) = false →
      TreeIntegCtl.repairDisp ⟨BatchMode, ReportRepairableSharing, rf⟩ =
        ReportRepairableSharing := fun _ => rfl
  have hne' : Edge.node c p1 i1 ≠ Edge.node c p2 i2 := by
    intro h
    injection h with hc hp hi
    exact hne (by rw [hp, hi])
  have hcnt : 0 < (l.foldl (procEdge s ⟨BatchMode, ReportRepairableSharing, rf⟩)
      initIV).exprShareCount := by
    obtain ⟨l1, l2, l3, hcase⟩ := mem_mem_split l _ _ h1 h2 hne'
    rcases hcase with hdec | hdec
    · have hpos := foldl_two_node_edges s ⟨BatchMode, ReportRepairableSharing, rf⟩ false
        hrep l1 l2 l3 c p1 i1 p2 i2 initIV (hdec ▸ hok) (initIV_ledger s false) hstq
        htrk herr hne
      rw [hdec]
      simpa [classCnt] using hpos
    · have hpos := foldl_two_node_edges s ⟨BatchMode, ReportRepairableSharing, rf⟩ false
        hrep l1 l2 l3 c p2 i2 p1 i1 initIV (hdec ▸ hok) (initIV_ledger s false) hstq
        htrk herr (fun h => hne h.symm)
      rw [hdec]
      simpa [classCnt] using hpos
  refine ⟨l.foldl (procEdge s ⟨BatchMode, ReportRepairableSharing, rf⟩) initIV,
    examine_eq_fail_expr s _ fuel root initIV g _ hv (by omega), hcnt, ?_⟩
  obtain ⟨d1, d2, d3⟩ := hdb
  exact diag_event_of_countP_pos _ (fun ev => isNodeShareEv false ev) (by omega)

lemma alook_aerase (c : Nat) : ∀ np : List (Nat × Nat × Nat), alook c (aerase c np) = none := by
  intro np
  induction np with
  | nil => rfl
  | cons e rest ih =>
    by_cases h : e.1 = c
    · simpa [aerase, h] using ih
    · simpa [aerase, alook, h] using ih

lemma repairLoop_append (rfuel : Nat) :
    ∀ (L1 L2 : List (Nat × Nat)) (s : Store) (vis : List Nat),
    repairLoop rfuel s vis (L1 ++ L2) =
      match repairLoop rfuel s vis L1 with
      | none => none
      | some (true, s1, v1) => repairLoop rfuel s1 v1 L2
      | some (false, s1, v1) => some (false, s1, v1) := by
  intro L1
  induction L1 with
  | nil => intro L2 s vis; simp [repairLoop]
  | cons ps L1 ih =>
    intro L2 s vis
    rw [List.cons_append, repairLoop, repairLoop]
    by_cases hmem : childAt s ps.1 ps.2 ∈ vis
    · simp only [if_pos hmem]
      cases hcl : cloneSubtree s rfuel (childAt s ps.1 ps.2) with
      | none => rfl
      | some r =>
        obtain ⟨s1, cl⟩ := r
        exact ih L2 (replaceChild s1 ps.1 ps.2 cl) vis
    · simp only [if_neg hmem]
      cases hrs : repairableSubTree s rfuel (childAt s ps.1 ps.2) with
      | none => rfl
      | some b =>
        cases b with
        | false => rfl
        | true =>
          cases hcl : cloneSubtree s rfuel (childAt s ps.1 ps.2) with
          | none => rfl
          | some r =>
            obtain ⟨s1, cl⟩ := r
            exact ih L2 (replaceChild s1 ps.1 ps.2 cl) (childAt s ps.1 ps.2 :: vis)

lemma withDisabled_restores {α : Type} (g : BackendState)
    (body : BackendState → Option (α × BackendState)) (a : α) (g1 : BackendState)
    (h : withIntegrityChecksDisabled g body = some (a, g1)) :
    g1.checksEnabled = g.checksEnabled := by
  unfold withIntegrityChecksDisabled at h
  cases hb : body { g with checksEnabled := false } with
  | none => rw [hb] at h; cases h
  | some r =>
    rw [hb] at h
    obtain ⟨a', g'⟩ := r
    have hq := Option.some.inj h
    have hg : ({ checksEnabled := g.checksEnabled } : BackendState) = g1 :=
      congrArg Prod.snd hq
    rw [← hg]

lemma repair_eq_of_loop_false (s : Store) (rfuel : Nat) (st : IntegrityVisitor)
    (g : BackendState) (s1 : Store) (v1 : List Nat)
    (h : repairLoop rfuel s [] st.sharing = some (false, s1, v1)) :
    repair s rfuel st g = some (false, s1, st, g) := by
  unfold repair withIntegrityChecksDisabled repairBody
  rw [h]

/-- C2 (amended): `unsetParent` removes the tracked entry for `child`
exactly when the existing entry's parent equals the detached parent OR its
slot equals the detached slot; the mapping is preserved only when both
components differ.  (The claim's exact-match rule does not hold: the source
tests the two components with a disjunction.) -/
theorem unsetParent_removes_iff_parent_or_slot_matches
    (s : Store) (c p i : Nat) (st : IntegrityVisitor) (pp ps : Nat)
    (htrk : shouldBeTracked (nodeAt s c) = true)
    (hl : alook c st.nparent = some (pp, ps)) :
    alook c (unsetParent s c p i st).nparent =
      (if pp = p ∨ ps = i then none else some (pp, ps)) := by
  by_cases hcond : pp = p ∨ ps = i
  · rw [if_pos hcond]
    simp [unsetParent, htrk, hl, hcond, alook_aerase]
  · rw [if_neg hcond]
    simp [unsetParent, htrk, hl, hcond]

/-- C2 counterexample: a recorded entry (7, 3) is erased when detaching
(7, 5) — the parents match but the slots differ, yet the mapping is removed,
contradicting the claim that it is removed only on an exact (parent, slot)
match. -/
theorem unsetParent_or_match_counterexample :
    alook 3 (unsetParent [] 3 7 5
      { initIV with nparent := [(3, 7, 3)] }).nparent = none ∧
    ((7, 3) : Nat × Nat) ≠ (7, 5) ∧
    shouldBeTracked (nodeAt [] 3) = true := by
  decide

/-- C3: the repairability classifier, whenever it terminates, answers `true`
exactly when every node reachable from the root through child edges passes
the whitelist test — flavor among constant, variable reference, conversion,
dereference, struct-field access, or a binary operation restricted to
addition/subtraction. -/
theorem isRepairable_true_iff_subtree_whitelisted (s : Store) (fuel root : Nat)
    (b : Bool) (h : repairableSubTree s fuel root = some b) :
    b = true ↔ ∀ y, Reaches s root y → okNodeB (nodeAt s y) = true :=
  repairableSubTree_iff_whitelist s fuel root b h

/-- C3 witness: a dereference over a variable is classified repairable, and
the equivalence instantiates at that tree. -/
theorem isRepairable_true_iff_subtree_whitelisted_witness :
    repairableSubTree sDerefVar 5 0 = some true ∧
    ((true = true) ↔ ∀ y, Reaches sDerefVar 0 y → okNodeB (nodeAt sDerefVar y) = true) :=
  ⟨by decide, isRepairable_true_iff_subtree_whitelisted sDerefVar 5 0 true (by decide)⟩

/-- C4: if the classifier fails on a ledger entry partway through `repair`'s
loop, `repair` returns failure at once with the store as produced by the
already-processed prefix — slots rewritten to clones before the failure stay
rewritten and entries after the failing one are never processed (the result
does not depend on them); the visitor state (ledger included) and the
backend toggle are handed back unchanged. -/
theorem repair_partial_on_classification_failure
    (s : Store) (rfuel : Nat) (st : IntegrityVisitor) (g : BackendState)
    (L1 L2 : List (Nat × Nat)) (p i : Nat) (s1 : Store) (v1 : List Nat)
    (hsh : st.sharing = L1 ++ (p, i) :: L2)
    (hpre : repairLoop rfuel s [] L1 = some (true, s1, v1))
    (hmem : childAt s1 p i ∉ v1)
    (hcls : repairableSubTree s1 rfuel (childAt s1 p i) = some false) :
    repair s rfuel st g = some (false, s1, st, g) := by
  have hstep : repairLoop rfuel s1 v1 ((p, i) :: L2) = some (false, s1, v1) := by
    rw [repairLoop]
    simp only [if_neg hmem, hcls]
  have hloop : repairLoop rfuel s [] st.sharing = some (false, s1, v1) := by
    rw [hsh, repairLoop_append, hpre]
    exact hstep
  exact repair_eq_of_loop_false s rfuel st g s1 v1 hloop

/-- C4 witness: with ledger [(0,0), (0,1), (9,9)] over `sRepair`, the first
entry is rewritten to a clone, classification fails on (0,1), and repair
returns failure with the partially rewritten store, ignoring (9,9). -/
theorem repair_partial_on_classification_failure_witness :
    ({ initIV with sharing := [(0, 0), (0, 1), (9, 9)] }).sharing =
      [(0, 0)] ++ (0, 1) :: [(9, 9)] ∧
    repairLoop 6 sRepair [] [(0, 0)] = some (true, sRepairPartial, [1]) ∧
    childAt sRepairPartial 0 1 ∉ [1] ∧
    repairableSubTree sRepairPartial 6 (childAt sRepairPartial 0 1) = some false ∧
    repair sRepair 6 { initIV with sharing := [(0, 0), (0, 1), (9, 9)] } ⟨false⟩ =
      some (false, sRepairPartial, { initIV with sharing := [(0, 0), (0, 1), (9, 9)] },
        ⟨false⟩) :=
  ⟨by decide, by decide, by decide, by decide,
    repair_partial_on_classification_failure sRepair 6
      { initIV with sharing := [(0, 0), (0, 1), (9, 9)] } ⟨false⟩
      [(0, 0)] [(9, 9)] 0 1 sRepairPartial [1]
      (by decide) (by decide) (by decide) (by decide)⟩

/-- C5 (amended): the Parent Tracker entry of a tracked child is never
overwritten or removed by `setParent` (node or instruction form) — only
`unsetParent` can remove an entry — and on a genuine conflict whose child is
not the error sentinel, the conflicting location always ends up in the
Sharing Ledger (from which it is either silently absorbed or counted as
fatal); conflicts on error-sentinel children are ignored outright. -/
theorem parent_tracker_never_overwritten
    (s : Store) (ctl : TreeIntegCtl) (c p i : Nat) (st : IntegrityVisitor)
    (prev : Nat × Nat)
    (htrk : shouldBeTracked (nodeAt s c) = true)
    (hl : alook c st.nparent = some prev) :
    alook c (setParent s ctl c p i st).nparent = some prev ∧
    (∀ c' v, alook c' st.nparent = some v →
      alook c' (setParent s ctl c p i st).nparent = some v) ∧
    (∀ ii pj sj, (setParentInst ii pj sj st).nparent = st.nparent) ∧
    (prev ≠ (p, i) → (nodeAt s c).flavor ≠ N_Error →
      (p, i) ∈ (setParent s ctl c p i st).sharing) := by
  refine ⟨setParent_nparent_stable s ctl c p i st c prev hl,
    fun c' v hv => setParent_nparent_stable s ctl c p i st c' v hv,
    fun ii pj sj => setParentInst_nparent ii pj sj st, ?_⟩
  intro hne herr
  have hne' : ¬(prev.1 = p ∧ prev.2 = i) := fun hq => hne (Prod.ext hq.1 hq.2)
  by_cases hsh : (p, i) ∈ st.sharing
  · rw [setParent_eq_dup s ctl c p i st prev htrk hl hne' herr hsh]
    exact hsh
  · cases hstm : isStmtFlavor (nodeAt s c).flavor with
    | true =>
      rw [setParent_eq_stmt s ctl c p i st prev htrk hl hne' herr hsh hstm]
      simp
    | false =>
      by_cases hsup : ctl.repairDisp = DontReportRepairableSharing ∧
          repairableSubTree s ctl.rfuel c = some true
      · rw [setParent_eq_suppressed s ctl c p i st prev htrk hl hne' herr hsh
          ⟨hstm, hsup.1, hsup.2⟩]
        simp
      · rw [setParent_eq_expr s ctl c p i st prev htrk hl hne' herr hsh hstm hsup]
        simp

/-- C5 counterexample: a tracked error-sentinel child with a recorded entry
(5, 0) is attached at the distinct location (6, 1); the conflict path leaves
the state completely unchanged — the new location is neither absorbed into
the Sharing Ledger nor counted as fatal, contradicting "every conflict path
... either absorbing the new location into the Sharing Ledger or counting it
as fatal". -/
theorem error_node_conflict_counterexample :
    setParent sErrNode ⟨BatchMode, DontReportRepairableSharing, 3⟩ 0 6 1
      { initIV with nparent := [(0, 5, 0)] } =
      { initIV with nparent := [(0, 5, 0)] } ∧
    alook 0 ({ initIV with nparent := [(0, 5, 0)] } :
      IntegrityVisitor).nparent = some (5, 0) ∧
    ((5, 0) : Nat × Nat) ≠ (6, 1) ∧
    shouldBeTracked (nodeAt sErrNode 0) = true ∧
    ({ initIV with nparent := [(0, 5, 0)] } : IntegrityVisitor).sharing = [] := by
  decide

/-- C7: in Incremental mode, when all three share counters are zero after
visiting, `examine` clears the Sharing Ledger and returns success without
invoking repair: the store and the backend toggle are returned untouched. -/
theorem examine_incremental_clean_defers
    (s : Store) (ctl : TreeIntegCtl) (fuel node : Nat) (st : IntegrityVisitor)
    (g : BackendState) (st1 : IntegrityVisitor)
    (hmode : ctl.visitMode = IncrementalMode)
    (hv : visit s ctl fuel node st = some st1)
    (hi : st1.instShareCount = 0) (hs : st1.stmtShareCount = 0)
    (he : st1.exprShareCount = 0) :
    examine s ctl fuel node st g = some (true, s, { st1 with sharing := [] }, g) := by
  unfold examine
  rw [hv]
  simp [hi, hs, he, hmode]

/-- C7 witness: incremental check of a root with suppressed whitelisted
sharing among its direct children — counters all zero, ledger nonempty; the
ledger is cleared, success is returned, no clone happens. -/
theorem examine_incremental_clean_defers_witness :
    (⟨IncrementalMode, DontReportRepairableSharing, 5⟩ :
      TreeIntegCtl).visitMode = IncrementalMode ∧
    visit sExprShare ⟨IncrementalMode, DontReportRepairableSharing, 5⟩ 2 0 initIV =
      some { nparent := [(1, 0, 0)], iparent := [], sharing := [(0, 1)],
             instShareCount := 0, stmtShareCount := 0, exprShareCount := 0, diag := [] } ∧
    examine sExprShare ⟨IncrementalMode, DontReportRepairableSharing, 5⟩ 2 0 initIV
      ⟨true⟩ =
      some (true, sExprShare,
        { nparent := [(1, 0, 0)], iparent := [], sharing := [],
          instShareCount := 0, stmtShareCount := 0, exprShareCount := 0, diag := [] },
        ⟨true⟩) :=
  ⟨rfl, by decide,
    examine_incremental_clean_defers sExprShare
      ⟨IncrementalMode, DontReportRepairableSharing, 5⟩ 2 0 initIV ⟨true⟩
      { nparent := [(1, 0, 0)], iparent := [], sharing := [(0, 1)],
        instShareCount := 0, stmtShareCount := 0, exprShareCount := 0, diag := [] }
      rfl (by decide) rfl rfl rfl⟩

/-- C8: `repair` runs its body under the scoped integrity-check disabler,
and on every exit path — success or the early failure return — the backend's
enabled/disabled toggle after `repair` equals its value before. -/
theorem repair_restores_integrity_checks_toggle
    (s : Store) (rfuel : Nat) (st : IntegrityVisitor) (g : BackendState)
    (b : Bool) (s1 : Store) (st1 : IntegrityVisitor) (g1 : BackendState)
    (h : repair s rfuel st g = some (b, s1, st1, g1)) :
    g1.checksEnabled = g.checksEnabled := by
  unfold repair at h
  cases hw : withIntegrityChecksDisabled g (repairBody s rfuel st) with
  | none => rw [hw] at h; cases h
  | some r =>
    rw [hw] at h
    obtain ⟨a, gr⟩ := r
    have hg : gr = g1 := by
      have hq := Option.some.inj h
      exact congrArg (fun t => t.2.2.2) hq
    rw [← hg]
    exact withDisabled_restores g (repairBody s rfuel st) a gr hw

/-- C8 witness: a successful concrete repair returns with the toggle equal
to its initial value. -/
theorem repair_restores_integrity_checks_toggle_witness :
    repair sOneSlot 6 { initIV with sharing := [(0, 0)] } ⟨true⟩ =
      some (true, sOneSlotRepaired, initIV, ⟨true⟩) ∧
    (⟨true⟩ : BackendState).checksEnabled = (⟨true⟩ : BackendState).checksEnabled :=
  ⟨by decide,
    repair_restores_integrity_checks_toggle sOneSlot 6
      { initIV with sharing := [(0, 0)] } ⟨true⟩ true sOneSlotRepaired initIV ⟨true⟩
      (by decide)⟩

/-- C9 (amended): `setParent` on an Expression child that is a module-scope
value is a complete no-op — the child is never entered into the Parent
Tracker or the Sharing Ledger as a shared child, no counter changes and no
diagnostic is emitted for it — though such a node can still appear inside a
diagnostic as one of the parents of somebody else's shared child. -/
theorem setParent_moduleScope_noop
    (s : Store) (ctl : TreeIntegCtl) (c p i : Nat) (st : IntegrityVisitor)
    (hstq : isStmtFlavor (nodeAt s c).flavor = false)
    (hms : (nodeAt s c).isModuleScopeValue = true) :
    setParent s ctl c p i st = st :=
  setParent_eq_untracked s ctl c p i st (by simp [shouldBeTracked, hstq, hms])

/-- C9 witness: the no-op at a concrete module-scope constant. -/
theorem setParent_moduleScope_noop_witness :
    isStmtFlavor (nodeAt sModScope 1).flavor = false ∧
    (nodeAt sModScope 1).isModuleScopeValue = true ∧
    setParent sModScope ⟨BatchMode, ReportRepairableSharing, 5⟩ 1 0 0 initIV = initIV :=
  ⟨by decide, by decide,
    setParent_moduleScope_noop sModScope ⟨BatchMode, ReportRepairableSharing, 5⟩ 1 0 0
      initIV (by decide) (by decide)⟩

/-- C9 counterexample: visiting `sModScope` in batch mode produces a
diagnostic whose dump names the module-scope constant (handle 1) as one of
the parents of the shared variable (handle 3) — refuting the claim that a
module-scope value never appears in any diagnostic. -/
theorem moduleScope_in_diagnostic_counterexample :
    (visit sModScope ⟨BatchMode, ReportRepairableSharing, 5⟩ 5 0 initIV).map
      (fun st => st.diag) = some [DiagEvent.nodeShare false 3 1 2] ∧
    (nodeAt sModScope 1).isModuleScopeValue = true := by
  decide

/-- C10: when the candidate (parent, slot) of a conflict is already present
in the Sharing Ledger, `setParent` returns with the state completely
unchanged — no counter increments, no diagnostic — regardless of which child
originally caused that location to be inserted (the test is on the location
only, the hypotheses place no constraint relating the ledger entry to the
child). -/
theorem setParent_sharing_dedup_by_location
    (s : Store) (ctl : TreeIntegCtl) (c p i : Nat) (st : IntegrityVisitor)
    (prev : Nat × Nat)
    (htrk : shouldBeTracked (nodeAt s c) = true)
    (hl : alook c st.nparent = some prev)
    (hne : ¬(prev.1 = p ∧ prev.2 = i))
    (herr : (nodeAt s c).flavor ≠ N_Error)
    (hsh : (p, i) ∈ st.sharing) :
    setParent s ctl c p i st = st :=
  setParent_eq_dup s ctl c p i st prev htrk hl hne herr hsh

/-- C10 witness: the ledger holds (5, 2) (inserted for an unrelated child);
a conflict of child 4 at that same location changes nothing. -/
theorem setParent_sharing_dedup_by_location_witness :
    shouldBeTracked (nodeAt [] 4) = true ∧
    alook 4 ({ initIV with nparent := [(4, 9, 9)], sharing := [(5, 2)] } :
      IntegrityVisitor).nparent = some (9, 9) ∧
    ((5, 2) : Nat × Nat) ∈ ({ initIV with nparent := [(4, 9, 9)], sharing := [(5, 2)] } :
      IntegrityVisitor).sharing ∧
    setParent [] ⟨BatchMode, DontReportRepairableSharing, 3⟩ 4 5 2
      { initIV with nparent := [(4, 9, 9)], sharing := [(5, 2)] } =
      { initIV with nparent := [(4, 9, 9)], sharing := [(5, 2)] } :=
  ⟨by decide, by decide, by decide,
    setParent_sharing_dedup_by_location [] ⟨BatchMode, DontReportRepairableSharing, 3⟩
      4 5 2 { initIV with nparent := [(4, 9, 9)], sharing := [(5, 2)] } (9, 9)
      (by decide) (by decide) (by decide) (by decide) (by decide)⟩

/-- C1 counterexample: a tree whose only sharing is a whitelisted constant
under two slots of one expression, checked in Batch mode with reporting NOT
suppressed: `examine` returns failure — the sharing is not repaired and
success is not returned, contradicting the claim. -/
theorem examine_report_mode_counterexample :
    childAt sExprShare 0 0 = 1 ∧ childAt sExprShare 0 1 = 1 ∧
    ((0, 0) : Nat × Nat) ≠ (0, 1) ∧
    repairableSubTree sExprShare 10 1 = some true ∧
    (examine sExprShare ⟨BatchMode, ReportRepairableSharing, 10⟩ 5 0 initIV ⟨true⟩).map
      (fun r => r.1) = some false := by
  decide

/-- C1 witness: the amended theorem instantiated at the concrete shared
constant tree. -/
theorem examine_batch_reports_then_fails_witness :
    edgeList sExprShare ⟨BatchMode, ReportRepairableSharing, 10⟩ 5 0 =
      some [Edge.node 1 0 0, Edge.node 1 0 1] ∧
    (∃ st1, examine sExprShare ⟨BatchMode, ReportRepairableSharing, 10⟩ 5 0 initIV
        ⟨true⟩ = some (false, sExprShare, st1, ⟨true⟩) ∧
      0 < st1.exprShareCount ∧ ∃ ev ∈ st1.diag, isNodeShareEv false ev = true) :=
  ⟨by decide,
    examine_batch_reports_then_fails_on_repairable_sharing sExprShare 5 0 10 10 ⟨true⟩
      [Edge.node 1 0 0, Edge.node 1 0 1] 1 0 0 0 1
      (by decide) (by decide) (by decide) (by decide) (by decide) (by decide)⟩

/-- C6 counterexample: a Statement (handle 3) attached at the two distinct
locations (1, 0) and (2, 0) of the input tree, examined in Incremental mode:
`examine` returns success — the sharing lies below the root's direct edges
and the incremental traversal never sees it, contradicting "returns failure
in both modes". -/
theorem incremental_misses_deep_stmt_sharing_counterexample :
    childAt sStmtShare 1 0 = 3 ∧ childAt sStmtShare 2 0 = 3 ∧
    isStmtFlavor (nodeAt sStmtShare 3).flavor = true ∧
    ((1, 0) : Nat × Nat) ≠ (2, 0) ∧
    (examine sStmtShare ⟨IncrementalMode, DontReportRepairableSharing, 4⟩ 3 0 initIV
      ⟨true⟩).map (fun r => r.1) = some true := by
  decide

/-- C6 witness: the amended theorem instantiated at the concrete shared
statement tree in Batch mode. -/
theorem examine_fails_on_stmt_or_inst_sharing_witness :
    edgeList sStmtShare ⟨BatchMode, DontReportRepairableSharing, 4⟩ 4 0 =
      some [Edge.node 3 1 0, Edge.node 1 0 0, Edge.node 3 2 0, Edge.node 2 0 1] ∧
    (∃ st1, examine sStmtShare ⟨BatchMode, DontReportRepairableSharing, 4⟩ 4 0 initIV
        ⟨true⟩ = some (false, sStmtShare, st1, ⟨true⟩) ∧
      (0 < st1.stmtShareCount ∨ 0 < st1.instShareCount) ∧ st1.diag ≠ []) :=
  ⟨by decide,
    examine_fails_on_stmt_or_inst_sharing sStmtShare
      ⟨BatchMode, DontReportRepairableSharing, 4⟩ 4 0 ⟨true⟩
      [Edge.node 3 1 0, Edge.node 1 0 0, Edge.node 3 2 0, Edge.node 2 0 1]
      (by decide)
      (Or.inl ⟨3, 1, 0, 2, 0, by decide, by decide, by decide, by decide⟩)⟩

/-- C2 witness: the amended removal rule instantiated where both components
differ — the entry is preserved. -/
theorem unsetParent_removes_iff_matches_witness :
    shouldBeTracked (nodeAt [] 4) = true ∧
    alook 4 ({ initIV with nparent := [(4, 9, 2)] } : IntegrityVisitor).nparent =
      some (9, 2) ∧
    alook 4 (unsetParent [] 4 7 3 { initIV with nparent := [(4, 9, 2)] }).nparent =
      (if 9 = 7 ∨ 2 = 3 then none else some (9, 2)) :=
  ⟨by decide, by decide,
    unsetParent_removes_iff_parent_or_slot_matches [] 4 7 3
      { initIV with nparent := [(4, 9, 2)] } 9 2 (by decide) (by decide)⟩

/-- C5 witness: the never-overwritten/absorb conjunction instantiated at a
concrete tracked child with a conflicting second attachment. -/
theorem parent_tracker_never_overwritten_witness :
    shouldBeTracked (nodeAt [] 4) = true ∧
    alook 4 ({ initIV with nparent := [(4, 9, 9)] } : IntegrityVisitor).nparent =
      some (9, 9) ∧
    (alook 4 (setParent [] ⟨BatchMode, DontReportRepairableSharing, 3⟩ 4 5 2
        { initIV with nparent := [(4, 9, 9)] }).nparent = some (9, 9) ∧
      (∀ c' v, alook c' ({ initIV with nparent := [(4, 9, 9)] } :
          IntegrityVisitor).nparent = some v →
        alook c' (setParent [] ⟨BatchMode, DontReportRepairableSharing, 3⟩ 4 5 2
          { initIV with nparent := [(4, 9, 9)] }).nparent = some v) ∧
      (∀ ii pj sj, (setParentInst ii pj sj
          { initIV with nparent := [(4, 9, 9)] }).nparent =
        ({ initIV with nparent := [(4, 9, 9)] } : IntegrityVisitor).nparent) ∧
      (((9, 9) : Nat × Nat) ≠ (5, 2) → (nodeAt [] 4).flavor ≠ N_Error →
        ((5, 2) : Nat × Nat) ∈ (setParent [] ⟨BatchMode, DontReportRepairableSharing, 3⟩
          4 5 2 { initIV with nparent := [(4, 9, 9)] }).sharing)) :=
  ⟨by decide, by decide,
    parent_tracker_never_overwritten [] ⟨BatchMode, DontReportRepairableSharing, 3⟩
      4 5 2 { initIV with nparent := [(4, 9, 9)] } (9, 9) (by decide) (by decide)⟩
